import Mathlib

/-!
Verification development for the coupe partitioning library.

Shallow embedding conventions:
* f64 values of purely arithmetical code (multi-jagged, the space-filling
  curves, the seeding of k-means) are embedded as exact rationals: the
  operations involved (add, sub, mul, div, compare) are exact in that model
  and the claims under study do not depend on rounding.
* f64 values of analysis.rs are embedded as an explicit model F64 with a
  NaN and two infinities, because the NaN behaviour is what the claims are
  about.
* f64 values of the k-means inner loop are embedded as real numbers, since
  the code takes square roots.
* A Rust function that can panic is embedded as an Option-valued function,
  none standing for the panic.
* ProcessUniqueId minting is embedded as consecutive naturals handed out by
  a counter threaded through the computation: fresh ids are distinct, which
  is the only property the code relies on.
* rayon parallel folds are embedded by a fixed sequential schedule (per
  element, left to right); where a claim could depend on the schedule this
  is noted at the definition.
-/

namespace Coupe

/-- A 2D point with exact rational coordinates (source: Point2D with f64
coordinates). -/
abbrev PointQ : Type := ℚ × ℚ

/-! ### multi_jagged.rs -/

/-- Source multi_jagged.rs is_prime: trial division over the divisors i with
2 <= i and i * i <= n. The source bounds the loop by the truncated f64 square
root of n, which selects exactly these divisors; the guard i * i > n
expresses that bound in a form the kernel evaluates. -/
def is_prime (n : ℕ) : Bool :=
  if n < 2 then false
  else (List.range' 2 n).all (fun i => i * i > n || n % i != 0)

/-- Source multi_jagged.rs prime_factors inner loop: walk the candidate
divisors upward, skipping non primes exactly as the primes iterator of the
source does, dividing out each prime factor as often as it divides. The fuel
2*n+2 is enough for the walk to reach the largest prime factor. -/
def prime_factors_go : ℕ → ℕ → ℕ → List ℕ
  | 0, _, _ => []
  | fuel + 1, n, c =>
    if n ≤ 1 then []
    else if is_prime c then
      if n % c = 0 then c :: prime_factors_go fuel (n / c) c
      else prime_factors_go fuel n (c + 1)
    else prime_factors_go fuel n (c + 1)

/-- Source multi_jagged.rs prime_factors: the ascending prime factorization
with multiplicity, with the special case of returning [1] for n <= 1. -/
def prime_factors (n : ℕ) : List ℕ :=
  if n ≤ 1 then [1] else prime_factors_go (2 * n + 2) n 2

/-- Source multi_jagged.rs partition_scheme: the points are ignored and the
scheme is the prime factorization of num_parts. -/
def partition_scheme (_points : List PointQ) (num_parts : ℕ) : List ℕ :=
  prime_factors num_parts

/-- Source multi_jagged.rs is_less_cmp_f64: Less when a < b, Greater
otherwise (the NaN fallback of the source cannot arise over ℚ). -/
def is_less_cmp_f64 (a b : ℚ) : Ordering :=
  if a < b then Ordering.lt else Ordering.gt

/-- Insertion of one element into a list ordered by a comparator; used to
embed the comparison sort of the permutation. -/
def insert_cmp (cmp : ℕ → ℕ → Ordering) (x : ℕ) : List ℕ → List ℕ
  | [] => [x]
  | y :: ys =>
    match cmp x y with
    | Ordering.lt => x :: y :: ys
    | _ => y :: insert_cmp cmp x ys

/-- Comparison sort by a comparator (the source uses an unstable parallel
sort; any order consistent with the comparator is an admissible outcome and
the claims proved here do not depend on the order of ties). -/
def sort_cmp (cmp : ℕ → ℕ → Ordering) : List ℕ → List ℕ
  | [] => []
  | x :: xs => insert_cmp cmp x (sort_cmp cmp xs)

/-- Source multi_jagged.rs axis_sort: sort the permutation by the x (resp. y)
coordinate of the indexed point, with the is_less_cmp_f64 comparator.
Out-of-range indices read a default point; the permutations produced by the
algorithm only hold valid indices. -/
def axis_sort (points : List PointQ) (permutation : List ℕ) (x_axis : Bool) :
    List ℕ :=
  if x_axis then
    sort_cmp
      (fun i j => is_less_cmp_f64 (points.getD i 0).1 (points.getD j 0).1)
      permutation
  else
    sort_cmp
      (fun i j => is_less_cmp_f64 (points.getD i 0).2 (points.getD j 0).2)
      permutation

/-- One step of the scan consumption inside the threshold loop of
compute_split_positions: pop scan blocks, accumulating their weight, until
the accumulated weight would strictly exceed the threshold; returns the rest
of the scan, the index of the crossing block, the sum before that block and
the sum after it. none models the unwrap panic when the scan is exhausted. -/
def csp_inner : List (ℕ × ℚ) → ℚ → ℚ → Option (List (ℕ × ℚ) × ℕ × ℚ × ℚ)
  | [], _, _ => none
  | (i, w) :: rest, sum, t =>
    if sum + w > t then some (rest, i, sum, sum + w)
    else csp_inner rest (sum + w) t

/-- The threshold loop of compute_split_positions: for each threshold either
duplicate the last split (when a single scan block crossed more than one
threshold) or consume the scan until the threshold is crossed. Returns the
split indices and the cached sums, in order. none models the panics (indexing
an empty result, exhausting the scan). -/
def csp_pass :
    List (ℕ × ℚ) → ℚ → List ℕ → List ℚ → List ℚ →
      Option (List ℕ × List ℚ)
  | _, _, retRev, cacheRev, [] => some (retRev.reverse, cacheRev.reverse)
  | scan, curSum, retRev, cacheRev, t :: ts =>
    if curSum > t then
      match retRev, cacheRev with
      | r :: rs, c :: cs =>
        csp_pass scan curSum (r :: r :: rs) (c :: c :: cs) ts
      | _, _ => none
    else
      match csp_inner scan curSum t with
      | none => none
      | some (scan', idx, cacheVal, newSum) =>
        csp_pass scan' newSum (idx :: retRev) (cacheVal :: cacheRev) ts

/-- The final refinement loop of compute_split_positions: starting from a
split index and the cached sum before it, walk forward one element at a time
(adding the weight of the next permuted element, as the source does after
incrementing the index) until the sum reaches the threshold. none models the
out-of-bounds panic; the fuel permutation-length + 1 is enough for the walk
to reach the end of the permutation. -/
def csp_refine (ws : List ℚ) (perm : List ℕ) :
    ℕ → ℕ → ℚ → ℚ → Option ℕ
  | 0, _, _, _ => none
  | fuel + 1, idx, sum, t =>
    if sum < t then
      match perm.get? (idx + 1) with
      | none => none
      | some v =>
        match ws.get? v with
        | none => none
        | some w => csp_refine ws perm fuel (idx + 1) (sum + w) t
    else some idx

/-- Apply the refinement loop to each (index, cached sum, threshold) triple,
in order (the source zips the three lists). -/
def csp_final (ws : List ℚ) (perm : List ℕ) :
    List ℕ → List ℚ → List ℚ → Option (List ℕ)
  | i :: is, s :: ss, t :: ts =>
    match csp_refine ws perm (perm.length + 1) i s t with
    | none => none
    | some p =>
      match csp_final ws perm is ss ts with
      | none => none
      | some rest => some (p :: rest)
  | _, _, _ => some []

/-- Source multi_jagged.rs compute_split_positions: num_splits thresholds at
fractions j/(num_splits+1) of the total weight, a scan pass locating for
each threshold the block that crosses it, and a refinement walk. The rayon
fold is embedded with one scan block per element (one admissible schedule).
Out-of-range weight indices read 0; the permutations produced by the
algorithm only hold valid indices. -/
def compute_split_positions (ws : List ℚ) (perm : List ℕ) (num_splits : ℕ) :
    Option (List ℕ) :=
  let total : ℚ := (perm.map (fun i => ws.getD i 0)).sum
  let thresholds : List ℚ :=
    (List.range num_splits).map
      (fun j : ℕ => total * ((j : ℚ) + 1) / ((num_splits : ℚ) + 1))
  let blocks : List (ℕ × ℚ) := perm.enum.map (fun p => (p.1, ws.getD p.2 0))
  match csp_pass blocks 0 [] [] thresholds with
  | none => none
  | some (ret, cache) => csp_final ws perm ret cache thresholds

/-- Source multi_jagged.rs split_at_mut_many: split a list at the given
positions (positions count from the start of the original list; drained
tracks how much has been consumed). none models the panics of split_at_mut
on a position that is out of range or out of order. -/
def split_at_mut_many : List ℕ → List ℕ → ℕ → Option (List (List ℕ))
  | l, [], _ => some [l]
  | l, p :: ps, drained =>
    if drained ≤ p ∧ p - drained ≤ l.length then
      match split_at_mut_many (l.drop (p - drained)) ps p with
      | none => none
      | some subs => some (l.take (p - drained) :: subs)
    else none

/-- The leaf of the multi-jagged recursion: mint a fresh part id (the
counter) and write it at every index of the permutation. -/
def write_part_id (partition : List ℕ) (perm : List ℕ) (id : ℕ) : List ℕ :=
  perm.foldl (fun acc i => acc.set i id) partition

/-- The sibling loop of the multi-jagged recursion: run the recursion at the
next level on each sub-permutation. The source runs the siblings in parallel
over disjoint index ranges; running them left to right is an equivalent
schedule. recRest is the recursion at the tail of the scheme. -/
def mj_many
    (recRest : Bool → List ℕ → List ℕ → ℕ → Option (List ℕ × ℕ))
    (ax : Bool) : List (List ℕ) → List ℕ → ℕ → Option (List ℕ × ℕ)
  | [], part, c => some (part, c)
  | p :: ps, part, c =>
    match recRest ax p part c with
    | none => none
    | some (part', c') => mj_many recRest ax ps part' c'

/-- Source multi_jagged.rs multi_jagged_2d_recurse: with a non-empty scheme,
sort the permutation along the axis, compute the split positions, split the
permutation there and recurse on each sub-permutation with the axis flipped;
with an empty scheme, mint a fresh id and write it at every index of the
permutation. The id-minting counter is threaded explicitly. Defined through
the list recursor so that concrete runs reduce in the kernel. -/
def multi_jagged_2d_recurse (points : List PointQ) (ws : List ℚ) :
    List ℕ → Bool → List ℕ → List ℕ → ℕ → Option (List ℕ × ℕ) :=
  List.rec
    (motive := fun _ => Bool → List ℕ → List ℕ → ℕ → Option (List ℕ × ℕ))
    (fun _ perm part c => some (write_part_id part perm c, c + 1))
    (fun s _rest recRest ax perm part c =>
      let sorted := axis_sort points perm ax
      match compute_split_positions ws sorted s with
      | none => none
      | some pos =>
        match split_at_mut_many sorted pos 0 with
        | none => none
        | some subs => mj_many recRest (!ax) subs part c)

/-- Source multi_jagged.rs multi_jagged_2d_with_scheme: initial partition
filled with a first minted id (0 here), identity permutation, recursion
started on the x axis. Returns the id vector. -/
def multi_jagged_2d_with_scheme (points : List PointQ) (ws : List ℚ)
    (scheme : List ℕ) : Option (List ℕ) :=
  let len := points.length
  match
    multi_jagged_2d_recurse points ws scheme true (List.range len)
      (List.replicate len 0) 1
  with
  | none => none
  | some (part, _) => some part

/-- The number of leaves of the multi-jagged recursion for a scheme: each
level with entry s splits a slab at s positions, into s + 1 sub-slabs. -/
def scheme_leaf_bound (scheme : List ℕ) : ℕ :=
  (scheme.map (fun s => s + 1)).prod

/-! ### z_curve.rs -/

/-- The quadrants of a 2D bounding rectangle (source: geometry::Quadrant). -/
inductive Quadrant where
  | BottomLeft : Quadrant
  | BottomRight : Quadrant
  | TopLeft : Quadrant
  | TopRight : Quadrant
deriving DecidableEq, Repr

/-- Modelled from the spec: the geometry module (Mbr2D) is not under src/.
Following section 4.4 and the glossary, an Mbr is a rotation from
principal-axis analysis together with an axis-aligned box in the rotated
frame; the concrete inputs used here are axis-aligned point sets whose
principal axes are the coordinate axes, so the rotation is the identity and
the Mbr is the axis-aligned bounding box. -/
structure MbrQ where
  xmin : ℚ
  xmax : ℚ
  ymin : ℚ
  ymax : ℚ
deriving DecidableEq, Repr

/-- Modelled from the spec: quadrant classification of a point of the box,
by comparison with the box center (section 3, MBR exposes quadrant(p) in
{BL, BR, TL, TR}). -/
def MbrQ.quadrant (m : MbrQ) (p : PointQ) : Quadrant :=
  let cx := (m.xmin + m.xmax) / 2
  let cy := (m.ymin + m.ymax) / 2
  if p.1 ≤ cx then
    if p.2 ≤ cy then Quadrant.BottomLeft else Quadrant.TopLeft
  else
    if p.2 ≤ cy then Quadrant.BottomRight else Quadrant.TopRight

/-- Modelled from the spec: sub_mbr(q) produces the MBR of the chosen
quadrant (section 3). -/
def MbrQ.sub_mbr (m : MbrQ) (q : Quadrant) : MbrQ :=
  let cx := (m.xmin + m.xmax) / 2
  let cy := (m.ymin + m.ymax) / 2
  match q with
  | Quadrant.BottomLeft => ⟨m.xmin, cx, m.ymin, cy⟩
  | Quadrant.BottomRight => ⟨cx, m.xmax, m.ymin, cy⟩
  | Quadrant.TopLeft => ⟨m.xmin, cx, cy, m.ymax⟩
  | Quadrant.TopRight => ⟨cx, m.xmax, cy, m.ymax⟩

/-- Modelled from the spec: Mbr2D::from_points as the axis-aligned bounding
box of the points (rotation identity, see MbrQ). -/
def mbr_from_points : List PointQ → MbrQ
  | [] => ⟨0, 0, 0, 0⟩
  | p :: ps =>
    ps.foldl
      (fun m q =>
        ⟨min m.xmin q.1, max m.xmax q.1, min m.ymin q.2, max m.ymax q.2⟩)
      ⟨p.1, p.1, p.2, p.2⟩

/-- A u32 left shift: multiply by 2 ^ k and keep the low 32 bits. -/
def shl32 (h k : ℕ) : ℕ := (h * 2 ^ k) % 2 ^ 32

/-- The per-quadrant step of ZCurveQuadtree::compute_hashes_impl: filter the
mapped points of one quadrant; if more than one point fell there, recurse on
the sub-mbr with the updated hash, otherwise tag the at most one point with
the updated hash. The updated hash is the one of the source:
current_hash << 2 for BottomLeft and TopLeft and
current_hash << (2 + 0b01) = current_hash << 3 for BottomRight and TopRight
(the source shifts by the amount 2 + b instead of shifting by 2 and OR-ing
in the child index b). rec is the recursion at the next fuel level. -/
def z_quad_group
    (rec : MbrQ → List (PointQ × ℚ) → ℕ → Option (List (PointQ × ℚ × ℕ)))
    (mbr : MbrQ) (pts_map : List (Quadrant × PointQ × ℚ)) (q : Quadrant)
    (hash : ℕ) : Option (List (PointQ × ℚ × ℕ)) :=
  let grp := pts_map.filter (fun t => t.1 = q)
  let h' :=
    match q with
    | Quadrant.BottomLeft => shl32 hash 2
    | Quadrant.BottomRight => shl32 hash 3
    | Quadrant.TopLeft => shl32 hash 2
    | Quadrant.TopRight => shl32 hash 3
  if 1 < grp.length then
    rec (mbr.sub_mbr q) (grp.map (fun t => (t.2.1, t.2.2))) h'
  else some (grp.map (fun t => (t.2.1, t.2.2, h')))

/-- Source z_curve.rs ZCurveQuadtree::compute_hashes_impl: classify every
point of the current quadtree cell into its quadrant and handle the four
quadrants (the source joins them in parallel; the result is their
concatenation in the order bottom-left, bottom-right, top-left, top-right).
The fuel bounds the recursion depth; none models the unbounded recursion
the source would run into on coincident points. -/
def z_compute_hashes_impl :
    ℕ → MbrQ → List (PointQ × ℚ) → ℕ → Option (List (PointQ × ℚ × ℕ))
  | 0, _, _, _ => none
  | fuel + 1, mbr, pts, hash =>
    let pm := pts.map (fun pw => (mbr.quadrant pw.1, pw))
    match z_quad_group (z_compute_hashes_impl fuel) mbr pm
        Quadrant.BottomLeft hash with
    | none => none
    | some bl =>
      match z_quad_group (z_compute_hashes_impl fuel) mbr pm
          Quadrant.BottomRight hash with
      | none => none
      | some br =>
        match z_quad_group (z_compute_hashes_impl fuel) mbr pm
            Quadrant.TopLeft hash with
        | none => none
        | some tl =>
          match z_quad_group (z_compute_hashes_impl fuel) mbr pm
              Quadrant.TopRight hash with
          | none => none
          | some tr => some (bl ++ br ++ tl ++ tr)

/-- Source z_curve.rs ZCurveQuadtree::compute_hashes: start from the Mbr of
the whole point set and the hash 0. -/
def z_compute_hashes (points : List PointQ) (ws : List ℚ) (fuel : ℕ) :
    Option (List (PointQ × ℚ × ℕ)) :=
  z_compute_hashes_impl fuel (mbr_from_points points) (points.zip ws) 0

/-- The claimed hash update, as the spec words it: shift the current hash
left by D = 2 bits and OR in the child-quadrant index 0b00, 0b01, 0b10 or
0b11 (as a u32). -/
def claimed_hash_update (hash : ℕ) (q : Quadrant) : ℕ :=
  let b : ℕ :=
    match q with
    | Quadrant.BottomLeft => 0
    | Quadrant.BottomRight => 1
    | Quadrant.TopLeft => 2
    | Quadrant.TopRight => 3
  (shl32 hash 2) ||| b

/-! ### hilbert_curve.rs -/

/-- Source hilbert_curve.rs segment_to_segment: the affine map sending
[a_min, a_max] onto [b_min, b_max], computed exactly as the source does. -/
def segment_to_segment (a_min a_max b_min b_max : ℚ) : ℚ → ℚ :=
  let da := a_min - a_max
  let db := b_min - b_max
  let alpha := db / da
  let beta := b_min - a_min * alpha
  fun x => alpha * x + beta

/-- Truncation of a rational toward zero, the semantics of the Rust cast
from f64 to i64 on in-range values (Int division truncates toward zero). -/
def rat_trunc (q : ℚ) : ℤ := q.num / (q.den : ℤ)

/-- One iteration of the Liu and Schrack recurrence of
hilbert_curve.rs encode, on the (v0, v1) state: v1 is updated first and its
new value feeds the v0 update, as in the source. The i64 values reachable
here are nonnegative and well below the width, so i64 bitwise arithmetic is
ℕ bitwise arithmetic; the bitwise not of the nonnegative v0 only occurs
under an and, which is Nat.ldiff. -/
def hilbert_v_step (h_even not_x not_y temp : ℕ) (v : ℕ × ℕ) : ℕ × ℕ :=
  let v1 := ((v.2 &&& h_even) ||| ((v.1 ^^^ not_y) &&& temp)) >>> 1
  let v0 := ((v.1 &&& (v1 ^^^ not_x)) |||
    (Nat.ldiff (v1 ^^^ not_y) v.1)) >>> 1
  (v0, v1)

/-- Source hilbert_curve.rs interleave_bits, with explicit fuel standing for
the bit-length loop bound of the source (64 covers every reachable value):
bit i of even goes to bit 2i, bit i of odd goes to bit 2i+1. -/
def interleave_bits_go : ℕ → ℕ → ℕ → ℕ
  | 0, _, _ => 0
  | fuel + 1, odd, even =>
    if odd = 0 ∧ even = 0 then 0
    else even % 2 + 2 * (odd % 2) +
      4 * interleave_bits_go fuel (odd / 2) (even / 2)

/-- Source hilbert_curve.rs interleave_bits. -/
def interleave_bits (odd even : ℕ) : ℕ := interleave_bits_go 64 odd even

/-- Source hilbert_curve.rs encode: mask = 2^order - 1, h_even = x xor y,
the masked complements not_x and not_y, the recurrence iterated order - 1
times from (0, 0), the final h_odd, and the interleaving. -/
def encode (x y : ℕ) (order : ℕ) : ℕ :=
  let mask := 2 ^ order - 1
  let h_even := x ^^^ y
  let not_x := mask ^^^ (x &&& mask)
  let not_y := mask ^^^ (y &&& mask)
  let temp := not_x ^^^ y
  let v := (hilbert_v_step h_even not_x not_y temp)^[order - 1] (0, 0)
  let h_odd := (Nat.ldiff (v.2 ^^^ x) v.1) ||| (v.1 &&& (v.2 ^^^ not_y))
  interleave_bits h_odd h_even

/-- Source hilbert_curve.rs hilbert_index_computer, x axis part: the affine
mapping the code builds for the first rotated axis, from [aabb min, aabb
max] onto [0, order]. The geometry module is not under src/; the Mbr is the
spec-modelled MbrQ and the rotation is the identity (see MbrQ), which is
exact for the axis-aligned concrete inputs used here. -/
def hilbert_x_mapping (points : List PointQ) (order : ℕ) : ℚ → ℚ :=
  let mbr := mbr_from_points points
  segment_to_segment mbr.xmin mbr.xmax 0 (order : ℚ)

/-- Source hilbert_curve.rs hilbert_index_computer: rotate (identity here),
map both axes onto [0, order], truncate to integers and encode. -/
def hilbert_index_of (points : List PointQ) (order : ℕ) (p : PointQ) : ℕ :=
  let mbr := mbr_from_points points
  let xm := segment_to_segment mbr.xmin mbr.xmax 0 (order : ℚ)
  let ym := segment_to_segment mbr.ymin mbr.ymax 0 (order : ℚ)
  encode (rat_trunc (xm p.1)).toNat (rat_trunc (ym p.2)).toNat order

/-- The axis mapping as the claim words it: linearly map the axis onto the
integer range [0, 2^order), so the maximal coordinate maps to 2^order - 1. -/
def claimed_axis_mapping (a_min a_max : ℚ) (order : ℕ) : ℚ → ℚ :=
  segment_to_segment a_min a_max 0 ((2 ^ order : ℚ) - 1)

/-! ### lib.rs composition layer -/

/-- Source lib.rs trait InitialPartition over a point type: a partitioner
producing the id vector from points and weights. -/
structure InitialPartitionA (α : Type) where
  partition : List α → List ℚ → List ℕ

/-- Source lib.rs trait ImprovePartition over a point type: an improver
mutating the id vector in place, embedded as state passing. -/
structure ImprovePartitionA (α : Type) where
  improve_partition : List α → List ℚ → List ℕ → List ℕ

/-- Source lib.rs struct Composition: the two staged sub-algorithms, held by
value. -/
structure Composition (T U : Type) where
  first : T
  second : U

/-- Source lib.rs impl InitialPartition for Composition (lines 514 to 527):
run the first stage, then the improver in place on the result. -/
def Composition.run_partition {α : Type}
    (c : Composition (InitialPartitionA α) (ImprovePartitionA α))
    (points : List α) (weights : List ℚ) : List ℕ :=
  let part := c.first.partition points weights
  c.second.improve_partition points weights part

/-- Source lib.rs impl ImprovePartition for Composition (lines 529 to 545):
run both improvers in place, first then second. -/
def Composition.run_improve {α : Type}
    (c : Composition (ImprovePartitionA α) (ImprovePartitionA α))
    (points : List α) (weights : List ℚ) (part : List ℕ) : List ℕ :=
  c.second.improve_partition points weights
    (c.first.improve_partition points weights part)

/-- Source lib.rs Compose::compose (lines 555 to 563): pack the two stages
into a Composition, self first. -/
def compose {T U : Type} (a : T) (b : U) : Composition T U :=
  ⟨a, b⟩

/-! ### analysis.rs, over an explicit f64 model with NaN and infinities -/

/-- A model of f64 for the analysis functions: NaN, the two infinities and
finite values as exact rationals (signed zero and rounding are not modelled;
the claims under study concern NaN propagation and exact comparisons). -/
inductive F64 where
  | nan : F64
  | inf : F64
  | ninf : F64
  | val : ℚ → F64
deriving DecidableEq, Repr

/-- f64 addition on the model: NaN propagates, opposite infinities give NaN. -/
def F64.add : F64 → F64 → F64
  | F64.nan, _ => F64.nan
  | _, F64.nan => F64.nan
  | F64.inf, F64.ninf => F64.nan
  | F64.ninf, F64.inf => F64.nan
  | F64.inf, _ => F64.inf
  | _, F64.inf => F64.inf
  | F64.ninf, _ => F64.ninf
  | _, F64.ninf => F64.ninf
  | F64.val a, F64.val b => F64.val (a + b)

/-- f64 subtraction on the model. -/
def F64.sub : F64 → F64 → F64
  | F64.nan, _ => F64.nan
  | _, F64.nan => F64.nan
  | F64.inf, F64.inf => F64.nan
  | F64.ninf, F64.ninf => F64.nan
  | F64.inf, _ => F64.inf
  | _, F64.inf => F64.ninf
  | F64.ninf, _ => F64.ninf
  | _, F64.ninf => F64.inf
  | F64.val a, F64.val b => F64.val (a - b)

/-- f64 absolute value on the model. -/
def F64.abs : F64 → F64
  | F64.nan => F64.nan
  | F64.inf => F64.inf
  | F64.ninf => F64.inf
  | F64.val a => F64.val |a|

/-- f64 division on the model: NaN propagates, a finite value divided by
zero gives NaN for 0/0 and a signed infinity otherwise. -/
def F64.div : F64 → F64 → F64
  | F64.nan, _ => F64.nan
  | _, F64.nan => F64.nan
  | F64.inf, F64.inf => F64.nan
  | F64.inf, F64.ninf => F64.nan
  | F64.ninf, F64.inf => F64.nan
  | F64.ninf, F64.ninf => F64.nan
  | F64.inf, F64.val b => if b < 0 then F64.ninf else F64.inf
  | F64.ninf, F64.val b => if b < 0 then F64.inf else F64.ninf
  | F64.val _, F64.inf => F64.val 0
  | F64.val _, F64.ninf => F64.val 0
  | F64.val a, F64.val b =>
    if b = 0 then
      if a = 0 then F64.nan else if 0 < a then F64.inf else F64.ninf
    else F64.val (a / b)

/-- f64 partial_cmp on the model: None exactly when an operand is NaN. -/
def F64.partial_cmp : F64 → F64 → Option Ordering
  | F64.nan, _ => none
  | _, F64.nan => none
  | F64.inf, F64.inf => some Ordering.eq
  | F64.inf, _ => some Ordering.gt
  | _, F64.inf => some Ordering.lt
  | F64.ninf, F64.ninf => some Ordering.eq
  | F64.ninf, _ => some Ordering.lt
  | _, F64.ninf => some Ordering.gt
  | F64.val a, F64.val b => some (compare a b)

/-- The f64 Sum implementation: fold addition from 0. -/
def F64.sum (l : List F64) : F64 := l.foldl F64.add (F64.val 0)

/-- The distinct keys of a list in first-appearance order: one admissible
iteration order for the HashMap the source builds with into_group_map (the
facts proved about the analysis functions are invariant under the order). -/
def first_occurrences (keys : List ℕ) : List ℕ :=
  keys.foldl (fun acc i => if i ∈ acc then acc else acc ++ [i]) []

/-- Source analysis.rs weights: zip the partition ids with the weights
(truncating at the shorter list, as zip does), group the weights by id and
sum each group, in encounter order. -/
def part_weights (ws : List F64) (ids : List ℕ) : List F64 :=
  let pairs := ids.zip ws
  (first_occurrences (pairs.map (fun p => p.1))).map
    (fun k => F64.sum ((pairs.filter (fun p => p.1 = k)).map (fun p => p.2)))

/-- The fold of Iterator::max_by with the unwrap-ing comparator of
analysis.rs: keep the accumulator when it compares Greater, take the next
element otherwise, and panic (none) when partial_cmp returns None. -/
def f64_max_by_go : F64 → List F64 → Option F64
  | acc, [] => some acc
  | acc, y :: ys =>
    match F64.partial_cmp acc y with
    | none => none
    | some Ordering.gt => f64_max_by_go acc ys
    | some _ => f64_max_by_go y ys

/-- Source analysis.rs imbalance_max_diff: the maximum over all ordered
pairs of part weights of the absolute difference, 0 for an empty partition;
none models the panic of the unwrap on an incomparable (NaN) pair. -/
def imbalance_max_diff (ws : List F64) (ids : List ℕ) : Option F64 :=
  let parts := part_weights ws ids
  let diffs :=
    parts.flatMap (fun w1 => parts.map (fun w2 => F64.abs (F64.sub w1 w2)))
  match diffs with
  | [] => some (F64.val 0)
  | d :: ds => f64_max_by_go d ds

/-- Source analysis.rs imbalance_relative_diff: 0 for an empty weight list,
otherwise the max diff divided by the total weight. -/
def imbalance_relative_diff (ws : List F64) (ids : List ℕ) : Option F64 :=
  if ws.isEmpty then some (F64.val 0)
  else
    match imbalance_max_diff ws ids with
    | none => none
    | some md => some (F64.div md (F64.sum ws))

/-- The per-part weight sums at the rational level, the reference value for
the claim: distinct ids in first-appearance order, each with the sum of its
weights. -/
def q_part_sums (ws : List ℚ) (ids : List ℕ) : List ℚ :=
  let pairs := ids.zip ws
  (first_occurrences (pairs.map (fun p => p.1))).map
    (fun k => (((pairs.filter (fun p => p.1 = k)).map (fun p => p.2))).sum)

/-- Maximum part weight minus minimum part weight, 0 for an empty
partition: the quantity the claim says imbalance_max_diff computes. -/
def q_max_min_diff : List ℚ → ℚ
  | [] => 0
  | p :: ps => ps.foldl max p - ps.foldl min p

/-! ### k_means.rs

The k-means arithmetic takes square roots, so its f64 values are embedded
as real numbers (exact arithmetic; rounding is not modelled). Part ids are
naturals minted as consecutive numbers. -/

/-- A 2D point with real coordinates, for the k-means embedding. -/
abbrev RPoint : Type := ℝ × ℝ

/-- Modelled from the spec: the geometry module is not under src/; the L2
norm of section 4.1. -/
noncomputable def rnorm (p : RPoint) : ℝ := Real.sqrt (p.1 ^ 2 + p.2 ^ 2)

/-- Pointwise difference of two points. -/
def psub (a b : RPoint) : RPoint := (a.1 - b.1, a.2 - b.2)

/-- Modelled from the spec: center(points) is the arithmetic mean
(section 4.1). -/
noncomputable def center_mean (ps : List RPoint) : RPoint :=
  ((ps.map Prod.fst).sum / (ps.length : ℝ),
    (ps.map Prod.snd).sum / (ps.length : ℝ))

/-- The f64 partial_cmp with unwrap_or(Equal) on non-NaN reals: a total
comparison. -/
noncomputable def rcmp (a b : ℝ) : Ordering :=
  if a < b then Ordering.lt else if b < a then Ordering.gt else Ordering.eq

/-- Generic insertion into a list ordered by a comparator. -/
def insert_ord {α : Type} (cmp : α → α → Ordering) (x : α) :
    List α → List α
  | [] => [x]
  | y :: ys =>
    match cmp x y with
    | Ordering.lt => x :: y :: ys
    | _ => y :: insert_ord cmp x ys

/-- Generic comparison sort (itertools sorted_by; the concrete uses here do
not depend on the order of ties). -/
def sort_ord {α : Type} (cmp : α → α → Ordering) : List α → List α
  | [] => []
  | x :: xs => insert_ord cmp x (sort_ord cmp xs)

/-- Modelled from the spec: the axis-aligned bounding box of a real point
set, with identity rotation (see MbrQ; the concrete inputs used here are
axis-aligned). -/
structure MbrR where
  xmin : ℝ
  xmax : ℝ
  ymin : ℝ
  ymax : ℝ

/-- Modelled from the spec: Mbr2D::from_points over the reals. -/
noncomputable def mbrR_from_points : List RPoint → MbrR
  | [] => ⟨0, 0, 0, 0⟩
  | p :: ps =>
    ps.foldl
      (fun m q =>
        ⟨min m.xmin q.1, max m.xmax q.1, min m.ymin q.2, max m.ymax q.2⟩)
      ⟨p.1, p.1, p.2, p.2⟩

/-- Modelled from the spec: distance from a point to an axis-aligned box,
0 inside and the minimal L2 distance to a face outside (section 4.1). -/
noncomputable def mbrR_dist_to_point (m : MbrR) (p : RPoint) : ℝ :=
  let dx := max 0 (max (m.xmin - p.1) (p.1 - m.xmax))
  let dy := max 0 (max (m.ymin - p.2) (p.2 - m.ymax))
  Real.sqrt (dx ^ 2 + dy ^ 2)

/-- Source k_means.rs step_by as used at line 44: the elements at indices
0, gap+1, 2(gap+1), ...; Rust step_by(n) is step_by_gap (n-1). -/
def step_by_gap {α : Type} (gap : ℕ) : List α → List α
  | [] => []
  | x :: xs => x :: step_by_gap gap (xs.drop gap)
termination_by l => l.length
decreasing_by
  simp only [List.length_cons, List.length_drop]
  omega

/-- The state built by the seeding phase of balanced_k_means (source lines
34 to 56): selected centers, their minted ids, the per-point initial
assignments, influences, lower and upper bounds. -/
structure KmSeed where
  centers : List RPoint
  center_ids : List ℕ
  assignments : List ℕ
  influences : List ℝ
  lbs : List ℝ
  ubs : List ℝ

/-- Source k_means.rs balanced_k_means lines 34 to 56: custom weights are
all 1; the points are sorted along the Z curve (the reorder is a
permutation of the input and is not re-embedded: this definition takes the
already reordered point list, and everything proved about it is invariant
under the permutation); points_per_center = len / num_partitions (a panic,
none, when num_partitions = 0); every points_per_center-th point becomes a
center (step_by(0) panics, none, when points_per_center = 0); one fresh id
per center; assignments repeat each id points_per_center times, truncated
to the point count; influences are 1, lower bounds 0 and upper bounds 1. -/
noncomputable def balanced_k_means_seed (points : List RPoint)
    (num_partitions : ℕ) : Option KmSeed :=
  if num_partitions = 0 then none
  else
    let points_per_center := points.length / num_partitions
    if points_per_center = 0 then none
    else
      let centers := step_by_gap (points_per_center - 1) points
      let ids := List.range centers.length
      let assignments :=
        (ids.flatMap (fun id => List.replicate points_per_center id)).take
          points.length
      some ⟨centers, ids, assignments, centers.map (fun _ => 1),
        points.map (fun _ => 0), points.map (fun _ => 1)⟩

/-- Source k_means.rs lines 212 to 228, the per-cluster influence update:
ratio = target_weight / weight, new_influence = influence / sqrt(ratio),
applied when the change is below 0.05 * influence and otherwise clamped to
a step of exactly 0.05 * influence in the direction of the change. -/
noncomputable def update_influence (influence weight target_weight : ℝ) :
    ℝ :=
  let ratio := target_weight / weight
  let max_diff := (1 / 20 : ℝ) * influence
  let new_influence := influence / Real.sqrt ratio
  if |influence - new_influence| < max_diff then new_influence
  else if new_influence > influence then influence + max_diff
  else influence - max_diff

/-- The influence update as the claim words it: influence divided by
sqrt(weight / target_weight), with the same clamp of the absolute change to
0.05 * influence. -/
noncomputable def claimed_influence_update
    (influence weight target_weight : ℝ) : ℝ :=
  let new_influence := influence / Real.sqrt (weight / target_weight)
  let max_diff := (1 / 20 : ℝ) * influence
  if |influence - new_influence| < max_diff then new_influence
  else if new_influence > influence then influence + max_diff
  else influence - max_diff

/-- Source k_means.rs imbalance (lines 274 to 280): itertools minmax gives
max minus min when there are at least two entries, and the function returns
0 otherwise. -/
noncomputable def r_imbalance : List ℝ → ℝ
  | [] => 0
  | [_] => 0
  | w :: ws => ws.foldl max w - ws.foldl min w

/-- Group the pairs by key in first-appearance order, one admissible
iteration order of the HashMap built by into_group_map. -/
def group_pairs {β : Type} (l : List (ℕ × β)) : List (ℕ × List β) :=
  (first_occurrences (l.map (fun p => p.1))).map
    (fun k => (k, (l.filter (fun p => p.1 = k)).map (fun p => p.2)))

/-- Per-cluster total weights (source lines 192 to 202): group the
assignments with the weights and sum each group. -/
noncomputable def cluster_weights (asg : List ℕ) (ws : List ℝ) : List ℝ :=
  (group_pairs (asg.zip ws)).map (fun g => g.2.sum)

/-- The fold of the max_by with the unwrap_or(Equal) comparator: keep the
accumulator when it compares Greater, take the next element otherwise. -/
noncomputable def r_max_fold : ℝ → List ℝ → ℝ
  | acc, [] => acc
  | acc, y :: ys =>
    match rcmp acc y with
    | Ordering.gt => r_max_fold acc ys
    | _ => r_max_fold y ys

/-- max_by with unwrap_or(0.) as in relax_bounds. -/
noncomputable def r_max_by_or_zero : List ℝ → ℝ
  | [] => 0
  | x :: xs => r_max_fold x xs

/-- max_by with unwrap() as in balanced_k_means_iter lines 114 to 117:
none models the panic on an empty list of moved distances. -/
noncomputable def bkm_delta_max : List ℝ → Option ℝ
  | [] => none
  | x :: xs => some (r_max_fold x xs)

/-- Source k_means.rs relax_bounds (lines 254 to 272): every lower bound
grows by the maximal distance/influence ratio (0 when there are no
distances); the upper bounds zipped with (distance, influence) pairs shrink
by distance/influence, the unzipped tail staying unchanged. Returns
(lbs, ubs). -/
noncomputable def relax_bounds (lbs ubs dmoved infl : List ℝ) :
    List ℝ × List ℝ :=
  let pairs := dmoved.zip infl
  let mrat := r_max_by_or_zero (pairs.map (fun t => t.1 / t.2))
  let ubs2 := (List.zipWith (fun u t => u - t.1 / t.2) ubs pairs) ++
    ubs.drop pairs.length
  let lbs2 := lbs.map (fun l => l + mrat)
  (lbs2, ubs2)

/-- The fold_while of best_values (source lines 284 to 332), on the state
(lb, ub, assignment), over the zipped (center, id, mbr distance, influence)
entries, with the arms in source order: Done when the mbr distance exceeds
a set lb; a better lb; the uninitialized-lb arm that pushes the previous
upper bound into lb and overwrites ub and the assignment; a better ub; or
no change. -/
noncomputable def bv_fold (point : RPoint) :
    List ((RPoint × ℕ) × ℝ × ℝ) → (Option ℝ × Option ℝ × Option ℕ) →
      Option ℝ × Option ℝ × Option ℕ
  | [], st => st
  | ((c, id), dmbr, infl) :: rest, (lb, ub, a) =>
    let eff := rnorm (psub c point) / infl
    match lb with
    | some l =>
      if dmbr > l then (some l, ub, a)
      else if eff < l then bv_fold point rest (some eff, ub, a)
      else
        match ub with
        | some u =>
          if eff < u then bv_fold point rest (some u, some eff, some id)
          else bv_fold point rest (some l, some u, a)
        | none => bv_fold point rest (some l, none, a)
    | none => bv_fold point rest (ub, some eff, some id)

/-- Source k_means.rs best_values: run the fold from (None, None, None) and
unwrap the two bounds (none models the panic when a bound stays None, as
happens with a single center). -/
noncomputable def best_values (point : RPoint) (centers : List RPoint)
    (ids : List ℕ) (dmbrs infl : List ℝ) : Option (ℝ × ℝ × Option ℕ) :=
  let zipped := (((centers.zip ids).zip dmbrs).zip infl).map
    (fun t => (t.1.1, t.1.2, t.2))
  match bv_fold point zipped (none, none, none) with
  | (some l, some u, a) => some (l, u, a)
  | _ => none

/-- The per-point pass of assign_and_balance (source lines 172 to 189):
for every point with lb < ub, recompute the best values and update the
assignment (kept when best_values reports none), the lower and the upper
bound; other points keep their state. Walks the four lists in lockstep. -/
noncomputable def aab_assign (centers : List RPoint) (ids : List ℕ)
    (dmbrs infl : List ℝ) :
    List RPoint → List ℕ → List ℝ → List ℝ → Option (List (ℕ × ℝ × ℝ))
  | p :: ps, a :: rest_a, l :: rest_l, u :: rest_u =>
    if l < u then
      match best_values p centers ids dmbrs infl with
      | none => none
      | some (nl, nu, na) =>
        let a2 := match na with | some x => x | none => a
        match aab_assign centers ids dmbrs infl ps rest_a rest_l rest_u with
        | none => none
        | some rest => some ((a2, nl, nu) :: rest)
    else
      match aab_assign centers ids dmbrs infl ps rest_a rest_l rest_u with
      | none => none
      | some rest => some ((a, l, u) :: rest)
  | _, _, _, _ => some []

/-- The new cluster centers (source lines 230 to 238): group the points by
their assignment and take the mean of each group. -/
noncomputable def new_cluster_centers (asg : List ℕ) (pts : List RPoint) :
    List RPoint :=
  (group_pairs (asg.zip pts)).map (fun g => center_mean g.2)

/-- The influence adaptation loop (source lines 212 to 228): zip the
influences with the new cluster weights, updating the zipped prefix and
keeping the tail. -/
noncomputable def adapt_influences (infl new_weights : List ℝ)
    (target : ℝ) : List ℝ :=
  (List.zipWith (fun i w => update_influence i w target) infl new_weights)
    ++ infl.drop new_weights.length

/-- The inner loop of assign_and_balance (source lines 172 to 247), with
the state (assignments, influences, lbs, ubs) and the loop counter as fuel:
run the per-point pass, return when the cluster-weight imbalance is below
epsilon, otherwise adapt the influences, recompute the centers, relax the
bounds with the moved distances and iterate. When the fuel is exhausted the
current state is returned, as the source falls out of the for loop. -/
noncomputable def aab_loop (centersS : List RPoint) (ids : List ℕ)
    (dmbrsS : List ℝ) (pts : List RPoint) (ws : List ℝ) (target eps : ℝ) :
    ℕ → List ℕ → List ℝ → List ℝ → List ℝ →
      Option (List ℕ × List ℝ × List ℝ × List ℝ)
  | 0, asg, infl, lbs, ubs => some (asg, infl, lbs, ubs)
  | fuel + 1, asg, infl, lbs, ubs =>
    match aab_assign centersS ids dmbrsS infl pts asg lbs ubs with
    | none => none
    | some triples =>
      let asg2 := triples.map (fun t => t.1)
      let lbs2 := triples.map (fun t => t.2.1)
      let ubs2 := triples.map (fun t => t.2.2)
      let new_weights := cluster_weights asg2 ws
      if r_imbalance new_weights < eps then some (asg2, infl, lbs2, ubs2)
      else
        let infl2 := adapt_influences infl new_weights target
        let ncs := new_cluster_centers asg2 pts
        let dto := (centersS.zip ncs).map (fun t => rnorm (psub t.1 t.2))
        let lu := relax_bounds lbs2 ubs2 dto infl2
        aab_loop centersS ids dmbrsS pts ws target eps fuel asg2 infl2
          lu.1 lu.2

/-- Source k_means.rs assign_and_balance (lines 139 to 250): the centers
sorted by their influence-scaled distance to the Mbr of the points (the
id and influence lists are passed unsorted, as the source does), the target
weight as total weight over point count, then the inner loop. -/
noncomputable def assign_and_balance (centers : List RPoint)
    (center_ids : List ℕ) (local_points : List RPoint) (weights : List ℝ)
    (influences : List ℝ) (assignments : List ℕ) (ubs lbs : List ℝ)
    (epsilon : ℝ) (max_iter : ℕ) :
    Option (List ℕ × List ℝ × List ℝ × List ℝ) :=
  let mbr := mbrR_from_points local_points
  let dmbrs := (centers.zip influences).map
    (fun t => mbrR_dist_to_point mbr t.1 / t.2)
  let sortedPairs := sort_ord (fun a b => rcmp a.2 b.2) (centers.zip dmbrs)
  let centersS := sortedPairs.map (fun t => t.1)
  let dmbrsS := sortedPairs.map (fun t => t.2)
  let target := weights.sum / (weights.length : ℝ)
  aab_loop centersS center_ids dmbrsS local_points weights target epsilon
    max_iter assignments influences lbs ubs

/-- Source k_means.rs balanced_k_means_iter (lines 73 to 137): one
assign_and_balance pass with the hard-coded inner epsilon 0.3 and inner
limit 100 (MAX_ITER); the caller destructures the returned
(assignments, influences, lbs, ubs) as (assignments, influences, ubs, lbs),
swapping the two bound vectors, which this embedding reproduces; the new
centers come from grouping the assignments zipped with the center list (as
the source does); the maximal moved distance is taken with an unwrap (none
on no centers); on delta-convergence or exhausted iterations the points
zipped with the assignments are returned as a plain list, otherwise the
bounds are relaxed and the recursion continues with one iteration less. -/
noncomputable def balanced_k_means_iter (centers : List RPoint)
    (center_ids : List ℕ) (points : List RPoint) (weights : List ℝ)
    (influences : List ℝ) (assignments : List ℕ) (ubs lbs : List ℝ)
    (epsilon : ℝ) (current_iter : ℕ) (delta_threshold : ℝ) :
    Option (List (RPoint × ℕ)) :=
  match assign_and_balance centers center_ids points weights influences
      assignments ubs lbs (3 / 10) 100 with
  | none => none
  | some (asg2, infl2, retLbs, retUbs) =>
    let ubs2 := retLbs
    let lbs2 := retUbs
    let ncs := (group_pairs (asg2.zip centers)).map
      (fun g => center_mean g.2)
    let dmoved := (centers.zip ncs).map (fun t => rnorm (psub t.1 t.2))
    match bkm_delta_max dmoved with
    | none => none
    | some dmax =>
      if dmax < delta_threshold ∨ current_iter = 0 then
        some (points.zip asg2)
      else
        let lu := relax_bounds lbs2 ubs2 dmoved infl2
        balanced_k_means_iter ncs center_ids points weights infl2 asg2
          lu.2 lu.1 epsilon (current_iter - 1) delta_threshold
termination_by current_iter
decreasing_by
  rename_i hcond
  rcases Nat.eq_zero_or_pos current_iter with h0 | h0
  · exact absurd (Or.inr h0) hcond
  · exact Nat.sub_lt h0 Nat.one_pos

/-! ### Lemmas and claim theorems -/

lemma write_part_id_nil (part : List ℕ) (id : ℕ) :
    write_part_id part [] id = part := rfl

lemma write_part_id_cons (part : List ℕ) (p : ℕ) (ps : List ℕ) (id : ℕ) :
    write_part_id part (p :: ps) id = write_part_id (part.set p id) ps id :=
  rfl

lemma write_part_id_length (perm : List ℕ) :
    ∀ (part : List ℕ) (id : ℕ),
      (write_part_id part perm id).length = part.length := by
  induction perm with
  | nil => intro part id; rfl
  | cons p ps ih =>
    intro part id
    rw [write_part_id_cons, ih, List.length_set]

lemma write_part_id_get_not_mem (perm : List ℕ) :
    ∀ (part : List ℕ) (id i : ℕ), i ∉ perm →
      (write_part_id part perm id).get? i = part.get? i := by
  induction perm with
  | nil => intro part id i _; rfl
  | cons p ps ih =>
    intro part id i hi
    rw [write_part_id_cons, ih _ _ _ (fun h => hi (List.mem_cons_of_mem _ h))]
    exact List.get?_set_ne _ _ (fun h => hi (h ▸ List.mem_cons_self p ps))

lemma write_part_id_get_or (perm : List ℕ) :
    ∀ (part : List ℕ) (id i : ℕ),
      (write_part_id part perm id).get? i = part.get? i ∨
        (write_part_id part perm id).get? i = some id := by
  induction perm with
  | nil => intro part id i; exact Or.inl rfl
  | cons p ps ih =>
    intro part id i
    rw [write_part_id_cons]
    rcases ih (part.set p id) id i with h | h
    · rw [h]
      by_cases hip : p = i
      · subst hip
        rw [List.get?_set_eq]
        rcases hv : part.get? p with _ | v
        · exact Or.inl (by simp [hv])
        · exact Or.inr (by simp [hv])
      · exact Or.inl (List.get?_set_ne _ _ hip)
    · exact Or.inr h

lemma write_part_id_get_mem (perm : List ℕ) :
    ∀ (part : List ℕ) (id i : ℕ), i ∈ perm → i < part.length →
      (write_part_id part perm id).get? i = some id := by
  induction perm with
  | nil => intro part id i hi; exact absurd hi (List.not_mem_nil i)
  | cons p ps ih =>
    intro part id i hi hlen
    rw [write_part_id_cons]
    by_cases hips : i ∈ ps
    · exact ih _ _ _ hips (by rw [List.length_set]; exact hlen)
    · have hip : i = p := by
        rcases List.mem_cons.mp hi with h | h
        · exact h
        · exact absurd h hips
      subst hip
      rw [write_part_id_get_not_mem _ _ _ _ hips,
        List.get?_set_eq_of_lt _ hlen]

lemma insert_cmp_mem (cmp : ℕ → ℕ → Ordering) (a x : ℕ) :
    ∀ l : List ℕ, x ∈ insert_cmp cmp a l ↔ x = a ∨ x ∈ l := by
  intro l
  induction l with
  | nil => simp [insert_cmp]
  | cons y ys ih =>
    rcases h : cmp a y with _ | _ | _ <;>
      simp [insert_cmp, h, ih, List.mem_cons] <;> tauto

lemma sort_cmp_mem (cmp : ℕ → ℕ → Ordering) (x : ℕ) :
    ∀ l : List ℕ, x ∈ sort_cmp cmp l ↔ x ∈ l := by
  intro l
  induction l with
  | nil => simp [sort_cmp]
  | cons y ys ih => simp [sort_cmp, insert_cmp_mem, ih, List.mem_cons]

lemma axis_sort_mem (points : List PointQ) (perm : List ℕ) (ax : Bool)
    (x : ℕ) : x ∈ axis_sort points perm ax ↔ x ∈ perm := by
  unfold axis_sort
  by_cases h : ax = true <;> simp [h, sort_cmp_mem]

lemma csp_pass_length :
    ∀ (ts : List ℚ) (scan : List (ℕ × ℚ)) (cur : ℚ) (retRev : List ℕ)
      (cacheRev : List ℚ) (out : List ℕ × List ℚ),
      csp_pass scan cur retRev cacheRev ts = some out →
        out.1.length = retRev.length + ts.length ∧
          out.2.length = cacheRev.length + ts.length := by
  intro ts
  induction ts with
  | nil =>
    intro scan cur retRev cacheRev out h
    simp only [csp_pass, Option.some_inj] at h
    subst h
    simp
  | cons t ts ih =>
    intro scan cur retRev cacheRev out h
    simp only [csp_pass] at h
    by_cases hgt : cur > t
    · rw [if_pos hgt] at h
      rcases retRev with _ | ⟨r, rs⟩
      · simp at h
      · rcases cacheRev with _ | ⟨c, cs⟩
        · simp at h
        · have := ih _ _ _ _ _ h
          simp only [List.length_cons] at this ⊢
          omega
    · rw [if_neg hgt] at h
      rcases hinner : csp_inner scan cur t with _ | val
      · rw [hinner] at h; simp at h
      · rw [hinner] at h
        obtain ⟨scan', idx, cacheVal, newSum⟩ := val
        have := ih _ _ _ _ _ h
        simp only [List.length_cons] at this ⊢
        omega

lemma csp_final_length (ws : List ℚ) (perm : List ℕ) :
    ∀ (is : List ℕ) (ss ts : List ℚ) (out : List ℕ),
      is.length = ss.length → ss.length = ts.length →
      csp_final ws perm is ss ts = some out → out.length = is.length := by
  intro is
  induction is with
  | nil =>
    intro ss ts out _ _ h
    simp only [csp_final, Option.some_inj] at h
    subst h
    rfl
  | cons i is ih =>
    intro ss ts out hss hts h
    match ss, ts with
    | [], _ => simp at hss
    | s :: ss, [] => simp at hts
    | s :: ss, t :: ts =>
      simp only [csp_final] at h
      rcases h1 : csp_refine ws perm (perm.length + 1) i s t with _ | p
      · rw [h1] at h; simp at h
      · rw [h1] at h
        rcases h2 : csp_final ws perm is ss ts with _ | rest
        · rw [h2] at h; simp at h
        · rw [h2] at h
          simp only [Option.some_inj] at h
          subst h
          have := ih ss ts rest (by simpa using hss) (by simpa using hts) h2
          simp [this]

lemma compute_split_positions_length (ws : List ℚ) (perm : List ℕ)
    (s : ℕ) (pos : List ℕ) :
    compute_split_positions ws perm s = some pos → pos.length = s := by
  intro h
  unfold compute_split_positions at h
  dsimp only at h
  rcases hp : csp_pass (perm.enum.map fun p => (p.1, ws.getD p.2 0)) 0 [] []
      ((List.range s).map
        fun j => (perm.map fun i => ws.getD i 0).sum * (↑j + 1) / (↑s + 1))
    with _ | rc
  · rw [hp] at h; simp at h
  · rw [hp] at h
    obtain ⟨ret, cache⟩ := rc
    have hl := csp_pass_length _ _ _ _ _ _ hp
    simp only [List.length_nil, List.length_map, List.length_range,
      Nat.zero_add] at hl
    have := csp_final_length ws perm ret cache _ pos
      (by rw [hl.1, hl.2]) (by simp [hl.2]) h
    rw [this, hl.1]

lemma split_at_mut_many_length :
    ∀ (ps l : List ℕ) (d : ℕ) (out : List (List ℕ)),
      split_at_mut_many l ps d = some out → out.length = ps.length + 1 := by
  intro ps
  induction ps with
  | nil =>
    intro l d out h
    simp only [split_at_mut_many, Option.some_inj] at h
    subst h
    rfl
  | cons p ps ih =>
    intro l d out h
    simp only [split_at_mut_many] at h
    by_cases hc : d ≤ p ∧ p - d ≤ l.length
    · rw [if_pos hc] at h
      rcases h2 : split_at_mut_many (l.drop (p - d)) ps p with _ | subs
      · rw [h2] at h; simp at h
      · rw [h2] at h
        simp only [Option.some_inj] at h
        subst h
        simp [ih _ _ _ h2]
    · rw [if_neg hc] at h; simp at h

lemma split_at_mut_many_flatten :
    ∀ (ps l : List ℕ) (d : ℕ) (out : List (List ℕ)),
      split_at_mut_many l ps d = some out → out.flatten = l := by
  intro ps
  induction ps with
  | nil =>
    intro l d out h
    simp only [split_at_mut_many, Option.some_inj] at h
    subst h
    simp
  | cons p ps ih =>
    intro l d out h
    simp only [split_at_mut_many] at h
    by_cases hc : d ≤ p ∧ p - d ≤ l.length
    · rw [if_pos hc] at h
      rcases h2 : split_at_mut_many (l.drop (p - d)) ps p with _ | subs
      · rw [h2] at h; simp at h
      · rw [h2] at h
        simp only [Option.some_inj] at h
        subst h
        simp [ih _ _ _ h2, List.take_append_drop]
    · rw [if_neg hc] at h; simp at h

lemma mj_many_invariant
    (recRest : Bool → List ℕ → List ℕ → ℕ → Option (List ℕ × ℕ))
    (bound : ℕ)
    (IH : ∀ ax perm part c out, recRest ax perm part c = some out →
      out.1.length = part.length ∧ c ≤ out.2 ∧ out.2 ≤ c + bound ∧
      (∀ i, out.1.get? i = part.get? i ∨
        ∃ v, out.1.get? i = some v ∧ c ≤ v ∧ v < out.2) ∧
      (∀ i, i ∈ perm → i < part.length →
        ∃ v, out.1.get? i = some v ∧ c ≤ v ∧ v < out.2)) :
    ∀ (subs : List (List ℕ)) (ax : Bool) (part : List ℕ) (c : ℕ)
      (out : List ℕ × ℕ),
      mj_many recRest ax subs part c = some out →
        out.1.length = part.length ∧ c ≤ out.2 ∧
          out.2 ≤ c + subs.length * bound ∧
          (∀ i, out.1.get? i = part.get? i ∨
            ∃ v, out.1.get? i = some v ∧ c ≤ v ∧ v < out.2) ∧
          (∀ sub, sub ∈ subs → ∀ i, i ∈ sub → i < part.length →
            ∃ v, out.1.get? i = some v ∧ c ≤ v ∧ v < out.2) := by
  intro subs
  induction subs with
  | nil =>
    intro ax part c out h
    simp only [mj_many, Option.some_inj] at h
    subst h
    refine ⟨rfl, le_refl c, by simp, fun i => Or.inl rfl, ?_⟩
    intro sub hsub
    exact absurd hsub (List.not_mem_nil sub)
  | cons p ps ih =>
    intro ax part c out h
    simp only [mj_many] at h
    rcases h1 : recRest ax p part c with _ | st
    · rw [h1] at h; simp at h
    · rw [h1] at h
      obtain ⟨part₁, c₁⟩ := st
      obtain ⟨F1len, F1le, F1ub, F1ent, F1cov⟩ := IH _ _ _ _ _ h1
      obtain ⟨F2len, F2le, F2ub, F2ent, F2cov⟩ := ih _ _ _ _ h
      refine ⟨F2len.trans F1len, le_trans F1le F2le, ?_, ?_, ?_⟩
      · have hsm : (ps.length + 1) * bound = ps.length * bound + bound :=
          Nat.succ_mul ps.length bound
        simp only [List.length_cons]
        omega
      · intro i
        rcases F2ent i with h2 | ⟨v, hv, hc1, hlt⟩
        · rw [h2]
          rcases F1ent i with h3 | ⟨v, hv, hc, hlt⟩
          · exact Or.inl h3
          · exact Or.inr ⟨v, hv, hc, lt_of_lt_of_le hlt F2le⟩
        · exact Or.inr ⟨v, hv, le_trans F1le hc1, hlt⟩
      · intro sub hsub i hi hlen
        rcases List.mem_cons.mp hsub with hsp | hsp
        · subst hsp
          obtain ⟨v, hv, hc, hlt⟩ := F1cov i hi hlen
          rcases F2ent i with h2 | ⟨w, hw, hc1, hlt'⟩
          · exact ⟨v, h2.trans hv, hc, lt_of_lt_of_le hlt F2le⟩
          · exact ⟨w, hw, le_trans F1le hc1, hlt'⟩
        · obtain ⟨v, hv, hc, hlt⟩ :=
            F2cov sub hsp i hi (by rw [F1len]; exact hlen)
          exact ⟨v, hv, le_trans F1le hc, hlt⟩

lemma multi_jagged_2d_recurse_cons_eq (points : List PointQ) (ws : List ℚ)
    (s : ℕ) (rest : List ℕ) (ax : Bool) (perm part : List ℕ) (c : ℕ) :
    multi_jagged_2d_recurse points ws (s :: rest) ax perm part c =
      (match compute_split_positions ws (axis_sort points perm ax) s with
      | none => none
      | some pos =>
        match split_at_mut_many (axis_sort points perm ax) pos 0 with
        | none => none
        | some subs =>
          mj_many (multi_jagged_2d_recurse points ws rest) (!ax) subs
            part c) := rfl

lemma multi_jagged_2d_recurse_invariant (points : List PointQ)
    (ws : List ℚ) :
    ∀ (scheme : List ℕ) (ax : Bool) (perm part : List ℕ) (c : ℕ)
      (out : List ℕ × ℕ),
      multi_jagged_2d_recurse points ws scheme ax perm part c = some out →
        out.1.length = part.length ∧ c ≤ out.2 ∧
          out.2 ≤ c + scheme_leaf_bound scheme ∧
          (∀ i, out.1.get? i = part.get? i ∨
            ∃ v, out.1.get? i = some v ∧ c ≤ v ∧ v < out.2) ∧
          (∀ i, i ∈ perm → i < part.length →
            ∃ v, out.1.get? i = some v ∧ c ≤ v ∧ v < out.2) := by
  intro scheme
  induction scheme with
  | nil =>
    intro ax perm part c out h
    have heq : multi_jagged_2d_recurse points ws [] ax perm part c =
        some (write_part_id part perm c, c + 1) := rfl
    rw [heq, Option.some_inj] at h
    subst h
    refine ⟨write_part_id_length perm part c, Nat.le_succ c, ?_, ?_, ?_⟩
    · simp [scheme_leaf_bound]
    · intro i
      rcases write_part_id_get_or perm part c i with h | h
      · exact Or.inl h
      · exact Or.inr ⟨c, h, le_refl c, Nat.lt_succ_self c⟩
    · intro i hi hlen
      exact ⟨c, write_part_id_get_mem perm part c i hi hlen, le_refl c,
        Nat.lt_succ_self c⟩
  | cons s rest ih =>
    intro ax perm part c out h
    rw [multi_jagged_2d_recurse_cons_eq] at h
    rcases hpos : compute_split_positions ws (axis_sort points perm ax) s
      with _ | pos
    · rw [hpos] at h; simp at h
    · rw [hpos] at h
      dsimp only at h
      rcases hsubs : split_at_mut_many (axis_sort points perm ax) pos 0
        with _ | subs
      · rw [hsubs] at h; simp at h
      · rw [hsubs] at h
        dsimp only at h
        obtain ⟨Mlen, Mle, Mub, Ment, Mcov⟩ :=
          mj_many_invariant _ (scheme_leaf_bound rest)
            (fun ax' perm' part' c' out' h' => ih ax' perm' part' c' out' h')
            subs (!ax) part c out h
        refine ⟨Mlen, Mle, ?_, Ment, ?_⟩
        · have hslen : subs.length = s + 1 := by
            rw [split_at_mut_many_length pos _ 0 subs hsubs,
              compute_split_positions_length ws _ s pos hpos]
          rw [hslen] at Mub
          have : scheme_leaf_bound (s :: rest) =
              (s + 1) * scheme_leaf_bound rest := by
            simp [scheme_leaf_bound]
          omega
        · intro i hi hlen
          have hi' : i ∈ axis_sort points perm ax :=
            (axis_sort_mem points perm ax i).mpr hi
          rw [← split_at_mut_many_flatten pos _ 0 subs hsubs] at hi'
          obtain ⟨sub, hsub, hisub⟩ := List.mem_flatten.mp hi'
          exact Mcov sub hsub i hisub hlen

/-- C1 (amended): for every points list, weight list and scheme on which
multi_jagged_2d_with_scheme returns, the returned id vector holds at most
prod over i of (s_i + 1) distinct part ids: each level splits a slab at s_i
positions, hence into s_i + 1 weight-balanced slabs, not s_i. -/
theorem C1_mj_distinct_id_bound (points : List PointQ) (ws : List ℚ)
    (scheme : List ℕ) (res : List ℕ)
    (h : multi_jagged_2d_with_scheme points ws scheme = some res) :
    res.toFinset.card ≤ scheme_leaf_bound scheme := by
  unfold multi_jagged_2d_with_scheme at h
  dsimp only at h
  rcases hrec : multi_jagged_2d_recurse points ws scheme true
      (List.range points.length) (List.replicate points.length 0) 1
    with _ | out
  · rw [hrec] at h; simp at h
  · rw [hrec] at h
    obtain ⟨part, cfin⟩ := out
    simp only [Option.some_inj] at h
    subst h
    obtain ⟨Ilen, _, Iub, _, Icov⟩ :=
      multi_jagged_2d_recurse_invariant points ws scheme true _ _ 1 _ hrec
    have hsub : part.toFinset ⊆ Finset.Ico 1 cfin := by
      intro x hx
      obtain ⟨n, hn⟩ := List.get?_of_mem (List.mem_toFinset.mp hx)
      have hnlen : n < part.length := by
        rcases List.get?_eq_some.mp hn with ⟨hlt, _⟩
        exact hlt
      have hnpts : n < points.length := by
        rw [Ilen, List.length_replicate] at hnlen
        exact hnlen
      obtain ⟨v, hv, h1, h2⟩ := Icov n (List.mem_range.mpr hnpts)
        (by rw [List.length_replicate]; exact hnpts)
      have : v = x := by rw [hn] at hv; exact (Option.some_inj.mp hv).symm
      subst this
      exact Finset.mem_Ico.mpr ⟨h1, h2⟩
    have := Finset.card_le_card hsub
    rw [Nat.card_Ico] at this
    omega

/-- C1 counterexample: with three unit-weight collinear points and the
scheme prime_factors 2 = [2] (the prime factorization of num_partitions = 2),
multi_jagged_2d_with_scheme returns three distinct part ids, although the
claim bounds the distinct ids by prod s_i = 2 = num_partitions: the level
splits the slab at 2 positions, into 3 sub-slabs. -/
theorem C1_mj_counterexample :
    multi_jagged_2d_with_scheme [((0:ℚ), 0), (1, 0), (2, 0)] [1, 1, 1]
        (prime_factors 2) = some [1, 2, 3] ∧
      ([1, 2, 3] : List ℕ).toFinset.card = 3 ∧
      (prime_factors 2).prod = 2 := by
  refine ⟨?_, by decide, by decide⟩
  have hpf : prime_factors 2 = [2] := by decide
  rw [hpf]
  norm_num [multi_jagged_2d_with_scheme, multi_jagged_2d_recurse,
    axis_sort, sort_cmp, insert_cmp, is_less_cmp_f64,
    compute_split_positions, csp_pass, csp_inner, csp_final, csp_refine,
    split_at_mut_many, mj_many, write_part_id, List.range, List.range.loop,
    List.enum, List.enumFrom]
  decide

/-- C1 witness: the amended bound at a concrete input, two points and the
scheme [1], where the run returns two distinct ids and the bound is 2. -/
theorem C1_mj_witness :
    multi_jagged_2d_with_scheme [((0:ℚ), 0), (1, 0)] [1, 1] [1] =
        some [1, 2] ∧
      ([1, 2] : List ℕ).toFinset.card ≤ scheme_leaf_bound [1] := by
  have h : multi_jagged_2d_with_scheme [((0:ℚ), 0), (1, 0)] [1, 1] [1] =
      some [1, 2] := by
    norm_num [multi_jagged_2d_with_scheme, multi_jagged_2d_recurse,
      axis_sort, sort_cmp, insert_cmp, is_less_cmp_f64,
      compute_split_positions, csp_pass, csp_inner, csp_final, csp_refine,
      split_at_mut_many, mj_many, write_part_id, List.range,
      List.range.loop, List.enum, List.enumFrom]
    decide
  exact ⟨h, C1_mj_distinct_id_bound _ _ _ _ h⟩

lemma shl32_zero (k : ℕ) : shl32 0 k = 0 := by simp [shl32]

lemma z_quad_group_zero
    (rec : MbrQ → List (PointQ × ℚ) → ℕ → Option (List (PointQ × ℚ × ℕ)))
    (hrec : ∀ mbr pts out, rec mbr pts 0 = some out → ∀ t ∈ out, t.2.2 = 0)
    (mbr : MbrQ) (pm : List (Quadrant × PointQ × ℚ)) (q : Quadrant)
    (out : List (PointQ × ℚ × ℕ))
    (h : z_quad_group rec mbr pm q 0 = some out) :
    ∀ t ∈ out, t.2.2 = 0 := by
  rcases q <;>
  · simp only [z_quad_group, shl32_zero] at h
    split at h
    · exact hrec _ _ _ h
    · simp only [Option.some_inj] at h
      subst h
      intro t ht
      simp only [List.mem_map] at ht
      obtain ⟨a, _, rfl⟩ := ht
      rfl

lemma z_hashes_zero :
    ∀ (fuel : ℕ) (mbr : MbrQ) (pts : List (PointQ × ℚ))
      (out : List (PointQ × ℚ × ℕ)),
      z_compute_hashes_impl fuel mbr pts 0 = some out →
        ∀ t ∈ out, t.2.2 = 0 := by
  intro fuel
  induction fuel with
  | zero => intro mbr pts out h; simp [z_compute_hashes_impl] at h
  | succ fuel ih =>
    intro mbr pts out h
    simp only [z_compute_hashes_impl] at h
    rcases hbl : z_quad_group (z_compute_hashes_impl fuel) mbr
        (pts.map fun pw => (mbr.quadrant pw.1, pw)) Quadrant.BottomLeft 0
      with _ | bl
    · rw [hbl] at h; simp at h
    rw [hbl] at h
    dsimp only at h
    rcases hbr : z_quad_group (z_compute_hashes_impl fuel) mbr
        (pts.map fun pw => (mbr.quadrant pw.1, pw)) Quadrant.BottomRight 0
      with _ | br
    · rw [hbr] at h; simp at h
    rw [hbr] at h
    dsimp only at h
    rcases htl : z_quad_group (z_compute_hashes_impl fuel) mbr
        (pts.map fun pw => (mbr.quadrant pw.1, pw)) Quadrant.TopLeft 0
      with _ | tl
    · rw [htl] at h; simp at h
    rw [htl] at h
    dsimp only at h
    rcases htr : z_quad_group (z_compute_hashes_impl fuel) mbr
        (pts.map fun pw => (mbr.quadrant pw.1, pw)) Quadrant.TopRight 0
      with _ | tr
    · rw [htr] at h; simp at h
    rw [htr] at h
    simp only [Option.some_inj] at h
    subst h
    intro t ht
    rcases List.mem_append.mp ht with ht' | htr'
    · rcases List.mem_append.mp ht' with ht'' | htl'
      · rcases List.mem_append.mp ht'' with hbl' | hbr'
        · exact z_quad_group_zero _ ih _ _ _ _ hbl t hbl'
        · exact z_quad_group_zero _ ih _ _ _ _ hbr t hbr'
      · exact z_quad_group_zero _ ih _ _ _ _ htl t htl'
    · exact z_quad_group_zero _ ih _ _ _ _ htr t htr'

/-- C2: the code never ORs the child-quadrant index into the hash: it
computes current_hash << (2 + 0b01) instead of (current_hash << 2) | 0b01
for the right-hand quadrants and current_hash << 2 for both left-hand
quadrants, so starting from 0 every spatial hash stays 0. On four points,
one per quadrant, the computed hashes are all 0, while the update the claim
describes gives the isolated top-right point the hash 0b11 = 3 after its
single split. -/
theorem C2_z_hash_update_drops_child_index :
    z_compute_hashes [((0:ℚ), 0), (1, 0), (0, 1), (1, 1)] [1, 1, 1, 1] 2 =
      some [(((0:ℚ), (0:ℚ)), (1:ℚ), (0:ℕ)), (((1:ℚ), (0:ℚ)), 1, 0),
        (((0:ℚ), (1:ℚ)), 1, 0), (((1:ℚ), (1:ℚ)), 1, 0)] ∧
      claimed_hash_update 0 Quadrant.TopRight = 3 := by
  constructor
  · norm_num [z_compute_hashes, z_compute_hashes_impl, z_quad_group,
      mbr_from_points, MbrQ.quadrant, MbrQ.sub_mbr, shl32, min_def, max_def,
      List.filter]
    decide
  · decide

/-- C3: the linear axis mapping of hilbert_index_computer sends the
bounding box onto [0, order], not onto the integer range [0, 2^order) that
the claim (and the module documentation, which promises 2^(2 order) cells)
describes: for the unit box and order 5 the code maps the maximal x
coordinate to 5, while the claimed mapping sends it to 2^5 - 1 = 31. -/
theorem C3_hilbert_axis_map_is_order_not_two_pow :
    hilbert_x_mapping [((0:ℚ), 0), (1, 1)] 5 1 = 5 ∧
      claimed_axis_mapping 0 1 5 1 = 31 ∧ (5 : ℚ) ≠ 31 := by
  refine ⟨?_, ?_, by norm_num⟩
  · norm_num [hilbert_x_mapping, mbr_from_points, segment_to_segment,
      min_def, max_def]
  · norm_num [claimed_axis_mapping, segment_to_segment]

/-- C5: for every initial partitioner a, every improver b and every input,
the composed partitioner compose(a, b).partition(points, weights) is exactly
b.improve_partition applied in place to a.partition(points, weights). -/
theorem C5_compose_is_partition_then_improve {α : Type}
    (a : InitialPartitionA α) (b : ImprovePartitionA α)
    (points : List α) (weights : List ℚ) :
    (compose a b).run_partition points weights =
      b.improve_partition points weights (a.partition points weights) :=
  rfl

lemma F64.sub_nan_right (a : F64) : F64.sub a F64.nan = F64.nan := by
  rcases a <;> rfl

lemma F64.partial_cmp_nan_right (a : F64) :
    F64.partial_cmp a F64.nan = none := by
  rcases a <;> rfl

lemma f64_foldl_add_val :
    ∀ (l : List ℚ) (a : ℚ),
      (l.map F64.val).foldl F64.add (F64.val a) = F64.val (a + l.sum) := by
  intro l
  induction l with
  | nil => intro a; simp [F64.add]
  | cons x xs ih =>
    intro a
    simp only [List.map_cons, List.foldl_cons, List.sum_cons]
    rw [show F64.add (F64.val a) (F64.val x) = F64.val (a + x) from rfl, ih,
      add_assoc]

lemma f64_sum_vals (l : List ℚ) : F64.sum (l.map F64.val) = F64.val l.sum := by
  rw [F64.sum, f64_foldl_add_val, zero_add]

lemma filter_fst_map_val (k : ℕ) :
    ∀ l : List (ℕ × ℚ),
      ((l.map (fun p => (p.1, F64.val p.2))).filter (fun p => p.1 = k)) =
        (l.filter (fun p => p.1 = k)).map (fun p => (p.1, F64.val p.2)) := by
  intro l
  induction l with
  | nil => rfl
  | cons p ps ih =>
    by_cases h : p.1 = k <;> simp [List.filter_cons, h, ih]

lemma part_weights_vals (qs : List ℚ) (ids : List ℕ) :
    part_weights (qs.map F64.val) ids = (q_part_sums qs ids).map F64.val := by
  unfold part_weights q_part_sums
  have hzip : ids.zip (qs.map F64.val) =
      (ids.zip qs).map (fun p => (p.1, F64.val p.2)) := by
    rw [List.zip_map_right]
    rfl
  rw [hzip]
  dsimp only
  rw [List.map_map, List.map_map]
  have hkeys :
      ((ids.zip qs).map ((fun p => p.1) ∘ fun p => (p.1, F64.val p.2))) =
        ((ids.zip qs).map fun p => p.1) := rfl
  rw [hkeys]
  congr 1
  funext k
  rw [filter_fst_map_val, List.map_map]
  have : ((fun p => p.2) ∘ fun p : ℕ × ℚ => (p.1, F64.val p.2)) =
      (F64.val ∘ fun p => p.2) := rfl
  rw [this, ← List.map_map, f64_sum_vals]
  rfl

lemma foldl_max_mem (xs : List ℚ) :
    ∀ a : ℚ, xs.foldl max a = a ∨ xs.foldl max a ∈ xs := by
  induction xs with
  | nil => intro a; exact Or.inl rfl
  | cons x xs ih =>
    intro a
    simp only [List.foldl_cons]
    rcases ih (max a x) with h | h
    · rcases max_choice a x with hm | hm
      · exact Or.inl (h.trans hm)
      · refine Or.inr ?_
        rw [h, hm]
        exact List.mem_cons_self x xs
    · exact Or.inr (List.mem_cons_of_mem x h)

lemma le_foldl_max (xs : List ℚ) :
    ∀ a : ℚ, a ≤ xs.foldl max a ∧ ∀ x ∈ xs, x ≤ xs.foldl max a := by
  induction xs with
  | nil =>
    intro a
    exact ⟨le_refl a, fun x hx => absurd hx (List.not_mem_nil x)⟩
  | cons y ys ih =>
    intro a
    simp only [List.foldl_cons]
    refine ⟨le_trans (le_max_left a y) (ih (max a y)).1, ?_⟩
    intro x hx
    rcases List.mem_cons.mp hx with rfl | h
    · exact le_trans (le_max_right a x) (ih (max a x)).1
    · exact (ih (max a y)).2 x h

lemma foldl_min_mem (xs : List ℚ) :
    ∀ a : ℚ, xs.foldl min a = a ∨ xs.foldl min a ∈ xs := by
  induction xs with
  | nil => intro a; exact Or.inl rfl
  | cons x xs ih =>
    intro a
    simp only [List.foldl_cons]
    rcases ih (min a x) with h | h
    · rcases min_choice a x with hm | hm
      · exact Or.inl (h.trans hm)
      · refine Or.inr ?_
        rw [h, hm]
        exact List.mem_cons_self x xs
    · exact Or.inr (List.mem_cons_of_mem x h)

lemma foldl_min_le (xs : List ℚ) :
    ∀ a : ℚ, xs.foldl min a ≤ a ∧ ∀ x ∈ xs, xs.foldl min a ≤ x := by
  induction xs with
  | nil =>
    intro a
    exact ⟨le_refl a, fun x hx => absurd hx (List.not_mem_nil x)⟩
  | cons y ys ih =>
    intro a
    simp only [List.foldl_cons]
    refine ⟨le_trans (ih (min a y)).1 (min_le_left a y), ?_⟩
    intro x hx
    rcases List.mem_cons.mp hx with rfl | h
    · exact le_trans (ih (min a x)).1 (min_le_right a x)
    · exact (ih (min a y)).2 x h

lemma f64_max_by_go_vals (xs : List ℚ) :
    ∀ a : ℚ, f64_max_by_go (F64.val a) (xs.map F64.val) =
      some (F64.val (xs.foldl max a)) := by
  induction xs with
  | nil => intro a; rfl
  | cons x xs ih =>
    intro a
    simp only [List.map_cons, List.foldl_cons]
    rw [show f64_max_by_go (F64.val a) (F64.val x :: xs.map F64.val) =
        (match F64.partial_cmp (F64.val a) (F64.val x) with
        | none => none
        | some Ordering.gt => f64_max_by_go (F64.val a) (xs.map F64.val)
        | some _ => f64_max_by_go (F64.val x) (xs.map F64.val)) from rfl,
      show F64.partial_cmp (F64.val a) (F64.val x) =
        some (compare a x) from rfl]
    rcases h : compare a x with _ | _ | _
    · have hx : a < x := compare_lt_iff_lt.mp h
      rw [show max a x = x from max_eq_right (le_of_lt hx)]
      exact ih x
    · have hx : a = x := compare_eq_iff_eq.mp h
      rw [show max a x = x from max_eq_right (le_of_eq hx)]
      exact ih x
    · have hx : x < a := compare_gt_iff_gt.mp h
      rw [show max a x = a from max_eq_left (le_of_lt hx)]
      exact ih a

lemma diffs_fold_max (p : ℚ) (ps : List ℚ) :
    (ps.map (fun b => |p - b|) ++
        ps.flatMap (fun a => (p :: ps).map (fun b => |a - b|))).foldl max
      |p - p| = q_max_min_diff (p :: ps) := by
  have hmin_le_max : ps.foldl min p ≤ ps.foldl max p :=
    le_trans (foldl_min_le ps p).1 (le_foldl_max ps p).1
  have hboundsmax : ∀ a ∈ p :: ps, a ≤ ps.foldl max p := by
    intro a ha
    rcases List.mem_cons.mp ha with rfl | h
    · exact (le_foldl_max ps a).1
    · exact (le_foldl_max ps p).2 a h
  have hboundsmin : ∀ a ∈ p :: ps, ps.foldl min p ≤ a := by
    intro a ha
    rcases List.mem_cons.mp ha with rfl | h
    · exact (foldl_min_le ps a).1
    · exact (foldl_min_le ps p).2 a h
  have hmemD : ∀ x,
      (x = |p - p| ∨
        x ∈ ps.map (fun b => |p - b|) ++
          ps.flatMap (fun a => (p :: ps).map (fun b => |a - b|))) →
      ∃ a ∈ p :: ps, ∃ b ∈ p :: ps, x = |a - b| := by
    intro x hx
    rcases hx with h | h
    · exact ⟨p, List.mem_cons_self p ps, p, List.mem_cons_self p ps, h⟩
    · rcases List.mem_append.mp h with h' | h'
      · obtain ⟨b, hb, rfl⟩ := List.mem_map.mp h'
        exact ⟨p, List.mem_cons_self p ps, b, List.mem_cons_of_mem p hb,
          rfl⟩
      · obtain ⟨a, ha, hx'⟩ := List.mem_flatMap.mp h'
        obtain ⟨b, hb, rfl⟩ := List.mem_map.mp hx'
        exact ⟨a, List.mem_cons_of_mem p ha, b, hb, rfl⟩
  have hub : ∀ x,
      (x = |p - p| ∨
        x ∈ ps.map (fun b => |p - b|) ++
          ps.flatMap (fun a => (p :: ps).map (fun b => |a - b|))) →
      x ≤ ps.foldl max p - ps.foldl min p := by
    intro x hx
    obtain ⟨a, ha, b, hb, rfl⟩ := hmemD x hx
    refine abs_sub_le_iff.mpr ⟨?_, ?_⟩
    · exact sub_le_sub (hboundsmax a ha) (hboundsmin b hb)
    · exact sub_le_sub (hboundsmax b hb) (hboundsmin a ha)
  have habs : |ps.foldl max p - ps.foldl min p| =
      ps.foldl max p - ps.foldl min p :=
    abs_of_nonneg (sub_nonneg.mpr hmin_le_max)
  have hmaxmem : ps.foldl max p ∈ p :: ps := by
    rcases foldl_max_mem ps p with h | h
    · rw [h]; exact List.mem_cons_self p ps
    · exact List.mem_cons_of_mem p h
  have hminmem : ps.foldl min p ∈ p :: ps := by
    rcases foldl_min_mem ps p with h | h
    · rw [h]; exact List.mem_cons_self p ps
    · exact List.mem_cons_of_mem p h
  have hattained : ps.foldl max p - ps.foldl min p = |p - p| ∨
      ps.foldl max p - ps.foldl min p ∈
        ps.map (fun b => |p - b|) ++
          ps.flatMap (fun a => (p :: ps).map (fun b => |a - b|)) := by
    rcases List.mem_cons.mp hmaxmem with hm | hm
    · rcases List.mem_cons.mp hminmem with hn | hn
      · exact Or.inl (by rw [hm, hn, sub_self, abs_zero])
      · refine Or.inr (List.mem_append.mpr (Or.inl ?_))
        refine List.mem_map.mpr ⟨ps.foldl min p, hn, ?_⟩
        rw [hm]
        exact abs_of_nonneg
          (sub_nonneg.mpr (hboundsmin p (List.mem_cons_self p ps)))
    · refine Or.inr (List.mem_append.mpr (Or.inr ?_))
      refine List.mem_flatMap.mpr ⟨ps.foldl max p, hm, ?_⟩
      exact List.mem_map.mpr ⟨ps.foldl min p, hminmem, habs⟩
  have hql : q_max_min_diff (p :: ps) =
      ps.foldl max p - ps.foldl min p := rfl
  rw [hql]
  apply le_antisymm
  · rcases foldl_max_mem
        (ps.map (fun b => |p - b|) ++
          ps.flatMap (fun a => (p :: ps).map (fun b => |a - b|))) |p - p|
      with h | h
    · rw [h]; exact hub _ (Or.inl rfl)
    · exact hub _ (Or.inr h)
  · rcases hattained with h | h
    · rw [h]
      exact (le_foldl_max _ |p - p|).1
    · exact (le_foldl_max _ |p - p|).2 _ h

lemma diffs_map_val :
    ∀ S : List ℚ,
      (S.map F64.val).flatMap
          (fun w1 => (S.map F64.val).map
            (fun w2 => F64.abs (F64.sub w1 w2))) =
        (S.flatMap (fun a => S.map (fun b => |a - b|))).map F64.val := by
  intro S
  rw [List.flatMap_map, List.map_flatMap]
  congr 1
  funext a
  rw [List.map_map, List.map_map]
  rfl

/-- C7: for every NaN-free weight list and id list of the same length,
imbalance_max_diff returns the maximum part weight minus the minimum part
weight (0 for an empty partition) and imbalance_relative_diff returns that
difference divided by the total weight (0 for an empty weight list), under
the f64 model. -/
theorem C7_imbalance_max_and_relative (qs : List ℚ) (ids : List ℕ)
    (hlen : qs.length = ids.length) :
    imbalance_max_diff (qs.map F64.val) ids =
        some (F64.val (q_max_min_diff (q_part_sums qs ids))) ∧
      imbalance_relative_diff (qs.map F64.val) ids =
        (if qs = [] then some (F64.val 0)
        else some (F64.div (F64.val (q_max_min_diff (q_part_sums qs ids)))
          (F64.val qs.sum))) := by
  have hmax : imbalance_max_diff (qs.map F64.val) ids =
      some (F64.val (q_max_min_diff (q_part_sums qs ids))) := by
    unfold imbalance_max_diff
    rw [part_weights_vals]
    dsimp only
    rw [diffs_map_val]
    rcases hS : q_part_sums qs ids with _ | ⟨p, ps⟩
    · simp [q_max_min_diff]
    · rw [List.flatMap_cons, List.map_cons, List.map_append,
        List.map_cons, List.cons_append]
      dsimp only
      rw [← List.map_append, f64_max_by_go_vals, diffs_fold_max]
  refine ⟨hmax, ?_⟩
  unfold imbalance_relative_diff
  by_cases hqs : qs = []
  · subst hqs
    simp
  · rw [if_neg hqs, hmax]
    have : (qs.map F64.val).isEmpty = false := by
      rcases qs with _ | ⟨q, qs⟩
      · exact absurd rfl hqs
      · rfl
    rw [this, f64_sum_vals]
    simp

/-- C7 witness: both identities at the concrete weights [1,2,3,2,1] and
ids [0,2,0,1,0] of the unit test of analysis.rs (part weights 5, 2, 2; the
difference is 3 and the total is 9). -/
theorem C7_imbalance_witness :
    imbalance_max_diff ([1, 2, 3, 2, 1].map F64.val) [0, 2, 0, 1, 0] =
        some (F64.val (q_max_min_diff
          (q_part_sums [1, 2, 3, 2, 1] [0, 2, 0, 1, 0]))) ∧
      imbalance_relative_diff ([1, 2, 3, 2, 1].map F64.val) [0, 2, 0, 1, 0] =
        (if ([1, 2, 3, 2, 1] : List ℚ) = [] then some (F64.val 0)
        else some (F64.div (F64.val (q_max_min_diff
            (q_part_sums [1, 2, 3, 2, 1] [0, 2, 0, 1, 0])))
          (F64.val ([1, 2, 3, 2, 1] : List ℚ).sum))) :=
  C7_imbalance_max_and_relative [1, 2, 3, 2, 1] [0, 2, 0, 1, 0] rfl

lemma f64_max_by_go_nan_mem :
    ∀ (l : List F64) (acc : F64), F64.nan ∈ l → f64_max_by_go acc l = none := by
  intro l
  induction l with
  | nil => intro acc h; exact absurd h (List.not_mem_nil _)
  | cons y ys ih =>
    intro acc h
    by_cases hy : y = F64.nan
    · subst hy
      rw [show f64_max_by_go acc (F64.nan :: ys) =
          (match F64.partial_cmp acc F64.nan with
          | none => none
          | some Ordering.gt => f64_max_by_go acc ys
          | some _ => f64_max_by_go F64.nan ys) from rfl,
        F64.partial_cmp_nan_right]
    · have hmem : F64.nan ∈ ys := by
        rcases List.mem_cons.mp h with h' | h'
        · exact absurd h'.symm hy
        · exact h'
      rw [show f64_max_by_go acc (y :: ys) =
          (match F64.partial_cmp acc y with
          | none => none
          | some Ordering.gt => f64_max_by_go acc ys
          | some _ => f64_max_by_go y ys) from rfl]
      rcases hc : F64.partial_cmp acc y with _ | o
      · rfl
      · rcases o <;> simp only [ih _ hmem]

lemma f64_max_by_go_nan_acc (l : List F64) (h : l ≠ []) :
    f64_max_by_go F64.nan l = none := by
  rcases l with _ | ⟨y, ys⟩
  · exact absurd rfl h
  · rcases y <;> rfl

/-- C8 (amended): when a part weight is NaN and there are at least two
parts, imbalance_max_diff panics (the unwrap on partial_cmp of a NaN pair):
NaN weights are not treated as 0 and no value is returned. -/
theorem C8_imbalance_nan_panics (ws : List F64) (ids : List ℕ)
    (hnan : F64.nan ∈ part_weights ws ids)
    (h2 : 2 ≤ (part_weights ws ids).length) :
    imbalance_max_diff ws ids = none := by
  unfold imbalance_max_diff
  rcases hP : part_weights ws ids with _ | ⟨p, rest⟩
  · rw [hP] at h2; simp at h2
  rw [hP] at hnan h2
  have hrest : rest ≠ [] := by
    intro hr
    rw [hr] at h2
    simp at h2
  dsimp only
  rw [List.flatMap_cons, List.map_cons, List.cons_append]
  by_cases hp : p = F64.nan
  · subst hp
    rw [show F64.abs (F64.sub F64.nan F64.nan) = F64.nan from rfl]
    apply f64_max_by_go_nan_acc
    rcases rest with _ | ⟨r, rs⟩
    · exact absurd rfl hrest
    · simp
  · have hmem : F64.nan ∈ rest := by
      rcases List.mem_cons.mp hnan with h' | h'
      · exact absurd h'.symm hp
      · exact h'
    apply f64_max_by_go_nan_mem
    refine List.mem_append.mpr (Or.inl ?_)
    refine List.mem_map.mpr ⟨F64.nan, hmem, ?_⟩
    rw [F64.sub_nan_right]
    rfl

/-- C8 counterexample: a weight list with a NaN entry on which
imbalance_max_diff does not return a value: the max_by comparator unwraps
partial_cmp on a NaN difference and panics, rather than treating the NaN
weight as 0 and reporting through an error channel. -/
theorem C8_imbalance_nan_counterexample :
    imbalance_max_diff [F64.nan, F64.val 1] [0, 1] = none := by
  decide

/-- C8 witness for the amended claim: the panic at another concrete input
with one NaN part weight out of two. -/
theorem C8_imbalance_nan_witness :
    imbalance_max_diff [F64.val 2, F64.nan] [3, 4] = none :=
  C8_imbalance_nan_panics [F64.val 2, F64.nan] [3, 4] (by decide) (by decide)

lemma step_by_gap_nil {α : Type} (g : ℕ) :
    step_by_gap g ([] : List α) = [] := by
  rw [step_by_gap.eq_def]

lemma step_by_gap_cons {α : Type} (g : ℕ) (x : α) (xs : List α) :
    step_by_gap g (x :: xs) = x :: step_by_gap g (xs.drop g) := by
  rw [step_by_gap.eq_def]

lemma step_by_gap_length_le {α : Type} (g : ℕ) :
    ∀ (n : ℕ) (l : List α), l.length ≤ n →
      (step_by_gap g l).length = (l.length + g) / (g + 1) := by
  intro n
  induction n with
  | zero =>
    intro l hl
    rcases l with _ | ⟨x, xs⟩
    · rw [step_by_gap_nil]
      simp [Nat.div_eq_of_lt (Nat.lt_succ_of_le (le_refl g))]
    · simp at hl
  | succ n ih =>
    intro l hl
    rcases l with _ | ⟨x, xs⟩
    · rw [step_by_gap_nil]
      simp [Nat.div_eq_of_lt (Nat.lt_succ_of_le (le_refl g))]
    · rw [step_by_gap_cons]
      simp only [List.length_cons]
      have hdrop : (xs.drop g).length ≤ n := by
        rw [List.length_drop]
        simp only [List.length_cons] at hl
        omega
      rw [ih (xs.drop g) hdrop, List.length_drop]
      by_cases hg : g ≤ xs.length
      · rw [Nat.sub_add_cancel hg,
          show xs.length + 1 + g = xs.length + (g + 1) by omega,
          Nat.add_div_right _ (Nat.succ_pos g)]
      · rw [Nat.sub_eq_zero_of_le (le_of_not_le hg), Nat.zero_add,
          Nat.div_eq_of_lt (Nat.lt_succ_of_le (le_refl g))]
        have hone : (xs.length + 1 + g) / (g + 1) = 1 :=
          Nat.div_eq_of_lt_le (by omega) (by omega)
        omega

lemma step_by_gap_length {α : Type} (g : ℕ) (l : List α) :
    (step_by_gap g l).length = (l.length + g) / (g + 1) :=
  step_by_gap_length_le g l.length l (le_refl _)

/-- C6 (amended): whenever the seeding of balanced_k_means succeeds, every
initial influence is 1, every initial lower bound is 0 and every initial
upper bound is 1 (the source initializes ubs with 1., not with infinity). -/
theorem C6_kmeans_initial_state (points : List RPoint) (k : ℕ) (r : KmSeed)
    (h : balanced_k_means_seed points k = some r) :
    r.influences = List.replicate r.centers.length 1 ∧
      r.lbs = List.replicate points.length 0 ∧
      r.ubs = List.replicate points.length 1 := by
  unfold balanced_k_means_seed at h
  by_cases hk : k = 0
  · rw [if_pos hk] at h
    simp at h
  · rw [if_neg hk] at h
    dsimp only at h
    by_cases hppc : points.length / k = 0
    · rw [if_pos hppc] at h
      simp at h
    · rw [if_neg hppc] at h
      simp only [Option.some_inj] at h
      subst h
      refine ⟨?_, ?_, ?_⟩ <;> simp [List.map_const']

/-- C6 counterexample: at a concrete seeding the initial upper bounds are
the finite value 1 and 1 < 2, so the initial upper bound is not plus
infinity (which every real would be below). -/
theorem C6_kmeans_ub_not_infinite :
    (balanced_k_means_seed [((0:ℝ), 0), (0, 0)] 1).map KmSeed.ubs =
        some [1, 1] ∧
      (1 : ℝ) < 2 := by
  constructor
  · simp [balanced_k_means_seed, step_by_gap_cons, step_by_gap_nil]
  · norm_num

/-- C6 witness: the amended statement instantiated at four points and two
parts, where the seeding yields influences [1, 1], lower bounds
[0, 0, 0, 0] and upper bounds [1, 1, 1, 1]. -/
theorem C6_kmeans_initial_witness :
    ([(1:ℝ), 1] = List.replicate 2 (1:ℝ)) ∧
      ([(0:ℝ), 0, 0, 0] = List.replicate 4 (0:ℝ)) ∧
      ([(1:ℝ), 1, 1, 1] = List.replicate 4 (1:ℝ)) := by
  have h : balanced_k_means_seed
      [((0:ℝ), 0), (1, 0), (2, 0), (3, 0)] 2 =
      some ⟨[((0:ℝ), 0), (2, 0)], [0, 1], [0, 0, 1, 1], [1, 1],
        [0, 0, 0, 0], [1, 1, 1, 1]⟩ := by
    simp only [balanced_k_means_seed, step_by_gap_cons, step_by_gap_nil,
      List.drop_succ_cons, List.drop_nil, List.drop_zero, List.length_cons,
      List.length_nil]
    norm_num
    decide
  have := C6_kmeans_initial_state _ _ _ h
  simp only [List.length_cons, List.length_nil] at this
  exact ⟨by simpa using this.1, by simpa using this.2.1,
    by simpa using this.2.2⟩

/-- C10: balanced_k_means seeding panics for num_partitions = 0 (division
by zero) and for num_partitions above the point count (points_per_center
becomes 0, so step_by(0) panics); with 1 <= num_partitions <= point count
it succeeds, selecting every floor(n/k)-th point, and yields at least
num_partitions centers. -/
theorem C10_kmeans_seed_bounds (points : List RPoint) (k : ℕ) :
    (k = 0 → balanced_k_means_seed points k = none) ∧
      (points.length < k → balanced_k_means_seed points k = none) ∧
      (1 ≤ k → k ≤ points.length →
        ∃ r, balanced_k_means_seed points k = some r ∧
          k ≤ r.centers.length ∧
          r.centers = step_by_gap (points.length / k - 1) points) := by
  refine ⟨?_, ?_, ?_⟩
  · intro hk
    unfold balanced_k_means_seed
    rw [if_pos hk]
  · intro hlt
    unfold balanced_k_means_seed
    by_cases hk : k = 0
    · rw [if_pos hk]
    · rw [if_neg hk]
      dsimp only
      rw [if_pos (Nat.div_eq_of_lt hlt)]
  · intro h1 h2
    have hk : k ≠ 0 := Nat.one_le_iff_ne_zero.mp h1
    have hkpos : 0 < k := h1
    have hppc : 1 ≤ points.length / k :=
      (Nat.le_div_iff_mul_le hkpos).mpr (by omega)
    have hppc0 : points.length / k ≠ 0 := Nat.one_le_iff_ne_zero.mp hppc
    unfold balanced_k_means_seed
    rw [if_neg hk]
    dsimp only
    rw [if_neg hppc0]
    refine ⟨_, rfl, ?_, rfl⟩
    rw [step_by_gap_length,
      Nat.sub_add_cancel hppc]
    calc k ≤ points.length / (points.length / k) := by
          rw [Nat.le_div_iff_mul_le (Nat.lt_of_lt_of_le Nat.zero_lt_one
            hppc)]
          calc k * (points.length / k) = points.length / k * k := by ring
            _ ≤ points.length := Nat.div_mul_le_self points.length k
      _ ≤ (points.length + (points.length / k - 1)) /
            (points.length / k) :=
          Nat.div_le_div_right (Nat.le_add_right _ _)

/-- C10 witness: the seeding at five points and two parts succeeds with at
least two centers (it selects indices 0, 2, 4). -/
theorem C10_kmeans_seed_witness :
    ∃ r, balanced_k_means_seed
        [((0:ℝ), 0), (1, 0), (2, 0), (3, 0), (4, 0)] 2 = some r ∧
      2 ≤ r.centers.length ∧
      r.centers = step_by_gap
        (([((0:ℝ), 0), (1, 0), (2, 0), (3, 0), (4, 0)].length / 2) - 1)
        [((0:ℝ), 0), (1, 0), (2, 0), (3, 0), (4, 0)] :=
  (C10_kmeans_seed_bounds _ 2).2.2 (by norm_num) (by simp)

/-- C4: the influence update of assign_and_balance divides by
sqrt(target_weight / weight), the reciprocal of what the claim states: at
influence 1, cluster weight 4 and target weight 1 (an over-weight part) the
code moves the influence up to its clamp 21/20 = 1.05, while the update the
claim describes, influence / sqrt(weight / target_weight) with the same
clamp, moves it down to 19/20 = 0.95. -/
theorem C4_influence_update_reversed :
    update_influence 1 4 1 = 21 / 20 ∧ (1 : ℝ) < 21 / 20 ∧
      claimed_influence_update 1 4 1 = 19 / 20 ∧ (19 / 20 : ℝ) < 1 := by
  have hs1 : Real.sqrt ((1 : ℝ) / 4) = 1 / 2 := by
    rw [show (1 : ℝ) / 4 = (1 / 2) ^ 2 by norm_num]
    exact Real.sqrt_sq (by norm_num)
  have hs2 : Real.sqrt ((4 : ℝ) / 1) = 2 := by
    rw [show (4 : ℝ) / 1 = 2 ^ 2 by norm_num]
    exact Real.sqrt_sq (by norm_num)
  refine ⟨?_, by norm_num, ?_, by norm_num⟩
  · unfold update_influence
    dsimp only
    rw [hs1]
    have habs : |(1 : ℝ) - 1 / (1 / 2)| = 1 := by
      rw [show (1 : ℝ) - 1 / (1 / 2) = -1 by norm_num, abs_neg, abs_one]
    rw [habs]
    rw [if_neg (by norm_num)]
    rw [if_pos (by norm_num)]
    norm_num
  · unfold claimed_influence_update
    dsimp only
    rw [hs2]
    have habs : |(1 : ℝ) - 1 / 2| = 1 / 2 := by
      rw [show (1 : ℝ) - 1 / 2 = 1 / 2 by norm_num]
      exact abs_of_nonneg (by norm_num)
    rw [habs]
    rw [if_neg (by norm_num)]
    rw [if_neg (by norm_num)]
    norm_num

lemma aab_loop_stops (cS : List RPoint) (ids : List ℕ) (dS : List ℝ)
    (pts : List RPoint) (ws : List ℝ) (t e : ℝ) (fuel : ℕ) (asg : List ℕ)
    (infl lbs ubs : List ℝ) (triples : List (ℕ × ℝ × ℝ))
    (h1 : aab_assign cS ids dS infl pts asg lbs ubs = some triples)
    (h2 : r_imbalance (cluster_weights (triples.map (fun t => t.1)) ws)
      < e) :
    aab_loop cS ids dS pts ws t e (fuel + 1) asg infl lbs ubs =
      some (triples.map (fun t => t.1), infl,
        triples.map (fun t => t.2.1), triples.map (fun t => t.2.2)) := by
  simp only [aab_loop]
  rw [h1]
  dsimp only
  rw [if_pos h2]

lemma assign_and_balance_concrete :
    assign_and_balance [((0:ℝ), 0), (0, 0)] [0, 1] [((0:ℝ), 0)] [1] [1, 1]
        [0] [1] [0] (3 / 10) 100 =
      some ([1], [1, 1], [0], [0]) := by
  unfold assign_and_balance
  dsimp only
  norm_num [mbrR_from_points, mbrR_dist_to_point, rnorm, psub, sort_ord,
    insert_ord, rcmp, Real.sqrt_zero, min_def, max_def]
  have h1 : aab_assign [((0:ℝ), (0:ℝ)), (0, 0)] [0, 1] [(0:ℝ), 0] [1, 1]
      [((0:ℝ), (0:ℝ))] [0] [(0:ℝ)] [(1:ℝ)] = some [(1, 0, 0)] := by
    norm_num [aab_assign, best_values, bv_fold, rnorm, psub, Real.sqrt_zero]
  have h2 : r_imbalance (cluster_weights
      (([((1:ℕ), (0:ℝ), (0:ℝ))]).map (fun t => t.1)) [1]) < 3 / 10 := by
    norm_num [cluster_weights, group_pairs, first_occurrences, r_imbalance]
  have h3 := aab_loop_stops [((0:ℝ), (0:ℝ)), (0, 0)] [0, 1] [(0:ℝ), 0]
    [((0:ℝ), (0:ℝ))] [1] 1 (3 / 10) 99 [0] [1, 1] [(0:ℝ)] [(1:ℝ)]
    [(1, 0, 0)] h1 h2
  simpa using h3

lemma bkm_delta_concrete :
    bkm_delta_max ((([((0:ℝ), 0), (0, 0)]).zip
        ((group_pairs (([1] : List ℕ).zip [((0:ℝ), 0), (0, 0)])).map
          (fun g => center_mean g.2))).map
      (fun t => rnorm (psub t.1 t.2))) = some 0 := by
  norm_num [group_pairs, first_occurrences, center_mean, rnorm, psub,
    bkm_delta_max, r_max_fold, Real.sqrt_zero]

/-- C9 (amended): when the outer iteration budget is exhausted
(current_iter = 0), balanced_k_means_iter returns the current assignment as
a plain vector of (point, id) pairs, whatever the moved-centroid distance:
there is no error channel and no did-not-converge flag in the result (the
counterexample exhibits a non-converged run whose output is identical to a
converged one). -/
theorem C9_iter_exhausted_returns_plain (centers : List RPoint)
    (ids : List ℕ) (pts : List RPoint) (ws infl : List ℝ) (asg : List ℕ)
    (ubs lbs : List ℝ) (eps dt : ℝ) (asg2 : List ℕ) (infl2 rl ru : List ℝ)
    (d : ℝ)
    (h1 : assign_and_balance centers ids pts ws infl asg ubs lbs (3 / 10)
      100 = some (asg2, infl2, rl, ru))
    (h2 : bkm_delta_max ((centers.zip
        ((group_pairs (asg2.zip centers)).map
          (fun g => center_mean g.2))).map
      (fun t => rnorm (psub t.1 t.2))) = some d) :
    balanced_k_means_iter centers ids pts ws infl asg ubs lbs eps 0 dt =
      some (pts.zip asg2) := by
  rw [balanced_k_means_iter.eq_def]
  rw [h1]
  dsimp only
  rw [h2]
  dsimp only
  rw [if_pos (Or.inr rfl)]

lemma bkm_iter_concrete (ci : ℕ) (dt : ℝ) (hc : (0:ℝ) < dt ∨ ci = 0) :
    balanced_k_means_iter [((0:ℝ), 0), (0, 0)] [0, 1] [((0:ℝ), 0)] [1]
        [1, 1] [0] [1] [0] (3 / 10) ci dt =
      some [(((0:ℝ), (0:ℝ)), 1)] := by
  rw [balanced_k_means_iter.eq_def]
  rw [assign_and_balance_concrete]
  dsimp only
  rw [bkm_delta_concrete]
  dsimp only
  rw [if_pos hc]
  norm_num

/-- C9 counterexample: one concrete input, one point at the origin with two
coincident centers, on which an exhausted run (current_iter = 0, maximal
moved-centroid distance 0 not below delta_threshold = 0, second conjunct)
returns exactly the same plain (point, id) list as a delta-converged run
(delta_threshold = 1 at current_iter = 5): the returned value carries no
did-not-converge flag and there is no error channel, so the claimed flag
cannot exist. -/
theorem C9_no_convergence_flag_counterexample :
    balanced_k_means_iter [((0:ℝ), 0), (0, 0)] [0, 1] [((0:ℝ), 0)] [1]
          [1, 1] [0] [1] [0] (3 / 10) 0 0 =
        some [(((0:ℝ), (0:ℝ)), 1)] ∧
      ¬ ((0:ℝ) < 0) ∧
      balanced_k_means_iter [((0:ℝ), 0), (0, 0)] [0, 1] [((0:ℝ), 0)] [1]
          [1, 1] [0] [1] [0] (3 / 10) 5 1 =
        some [(((0:ℝ), (0:ℝ)), 1)] :=
  ⟨bkm_iter_concrete 0 0 (Or.inr rfl), by norm_num,
    bkm_iter_concrete 5 1 (Or.inl (by norm_num))⟩

/-- C9 witness: the amended statement at the concrete input, with the
hypotheses discharged by the concrete evaluations. -/
theorem C9_iter_exhausted_witness :
    balanced_k_means_iter [((0:ℝ), 0), (0, 0)] [0, 1] [((0:ℝ), 0)] [1]
        [1, 1] [0] [1] [0] (7 / 10) 0 (2 / 3) =
      some (([((0:ℝ), 0)]).zip [1]) :=
  C9_iter_exhausted_returns_plain _ _ _ _ _ _ _ _ _ _ _ _ _ _ _
    assign_and_balance_concrete bkm_delta_concrete

end Coupe
